import Mathlib

/-!
Verification of the HTML manifest-embedding subsystem (`html_io.rs`).

The document is modelled as a `List Char`; all offsets count characters
(they agree with the source's byte offsets on ASCII documents, and every
marker literal involved is ASCII).  The four regular expressions of the
source are fixed patterns of the shape
`literal [^>]* literal [^>]* > (.*?) literal` with optional `\s*` around
them; each is embedded as a direct matcher whose leftmost-first semantics
is spelled out below, rather than through a general regex engine.
-/

namespace HtmlC2pa

/-! ## Bounded linear search

`firstFrom p i fuel` is the least `j` in `[i, i+fuel)` with `p j = true`.
Every regex search of the source (leftmost match, first `>` of a tag,
first closing tag) is expressed with it. -/

def firstFrom (p : Nat → Bool) (i : Nat) : Nat → Option Nat
  | 0 => none
  | fuel + 1 => if p i then some i else firstFrom p (i + 1) fuel

/-! ## Literal matching

`litAt s i lit` holds when the literal `lit` occurs in `s` starting at
position `i`; `ciLitAt` is the ASCII-case-insensitive variant used for the
`(?i)` patterns of the source (`</body>`, `<head[^>]*>`, whose letters have
no non-ASCII simple case foldings). -/

def litAt (s : List Char) (i : Nat) (lit : List Char) : Bool :=
  decide ((s.drop i).take lit.length = lit)

def lowerAscii (c : Char) : Char :=
  if 'A' ≤ c ∧ c ≤ 'Z' then Char.ofNat (c.toNat + 32) else c

def ciLitAt (s : List Char) (i : Nat) (lit : List Char) : Bool :=
  decide (((s.drop i).take lit.length).map lowerAscii = lit)

/-! ## Whitespace

The Unicode White_Space set: this is both Rust's `char::is_whitespace`
(used by `trim`/`trim_end`) and the regex crate's Unicode `\s`. -/

def isWs (c : Char) : Bool :=
  c = ' ' || c = '\t' || c = '\n' || c.toNat = 11 || c.toNat = 12 || c = '\r' ||
  c.toNat = 0x85 || c.toNat = 0xA0 || c.toNat = 0x1680 ||
  (0x2000 ≤ c.toNat && c.toNat ≤ 0x200A) ||
  c.toNat = 0x2028 || c.toNat = 0x2029 || c.toNat = 0x202F ||
  c.toNat = 0x205F || c.toNat = 0x3000

/-- Start of the maximal whitespace run that ends (exclusively) at `i`:
the least `a` such that all of `s[a..i)` is whitespace. -/
def wsRunStart (s : List Char) : Nat → Nat
  | 0 => 0
  | i + 1 => if isWs (s.getD i 'x') then wsRunStart s i else i + 1

/-- End of the maximal whitespace run starting at `j`: the least index
`≥ j` holding a non-whitespace character, or `s.length`. -/
def wsRunEnd (s : List Char) (j : Nat) : Nat :=
  match firstFrom (fun k => !(isWs (s.getD k 'x'))) j (s.length - j) with
  | some d => d
  | none => s.length

/-! ## Trimming (Rust `str::trim` / `str::trim_end`) -/

def trimStartWs (s : List Char) : List Char := s.drop (wsRunEnd s 0)

def trimEndWs (s : List Char) : List Char := s.take (wsRunStart s s.length)

def strTrim (s : List Char) : List Char := trimEndWs (trimStartWs s)

/-! ## Base64 (the `base64` crate's `STANDARD` engine)

Standard alphabet with `=` padding; decoding is strict: it rejects
non-alphabet characters, requires canonical padding to a multiple of four,
and rejects non-zero trailing bits (the crate's defaults). Bytes are `Nat`
values `< 256`. -/

def b64Alphabet : List Char :=
  "ABCDEFGHIJKLMNOPQRSTUVWXYZabcdefghijklmnopqrstuvwxyz0123456789+/".data

def b64Char (v : Nat) : Char := b64Alphabet.getD v '='

def b64Val (c : Char) : Option Nat :=
  firstFrom (fun j => b64Alphabet.getD j '=' == c) 0 64

def b64encode : List Nat → List Char
  | [] => []
  | [a] => [b64Char (a / 4), b64Char (a % 4 * 16), '=', '=']
  | [a, b] => [b64Char (a / 4), b64Char (a % 4 * 16 + b / 16), b64Char (b % 16 * 4), '=']
  | a :: b :: c :: rest =>
    b64Char (a / 4) :: b64Char (a % 4 * 16 + b / 16) :: b64Char (b % 16 * 4 + c / 64) ::
      b64Char (c % 64) :: b64encode rest

def b64decode : List Char → Option (List Nat)
  | [] => some []
  | c1 :: c2 :: c3 :: c4 :: rest =>
    if rest.isEmpty = true ∧ c4 = '=' then
      if c3 = '=' then
        match b64Val c1, b64Val c2 with
        | some v1, some v2 => if v2 % 16 = 0 then some [v1 * 4 + v2 / 16] else none
        | _, _ => none
      else
        match b64Val c1, b64Val c2, b64Val c3 with
        | some v1, some v2, some v3 =>
          if v3 % 4 = 0 then some [v1 * 4 + v2 / 16, v2 % 16 * 16 + v3 / 4] else none
        | _, _, _ => none
    else
      match b64Val c1, b64Val c2, b64Val c3, b64Val c4, b64decode rest with
      | some v1, some v2, some v3, some v4, some bs =>
        some ((v1 * 4 + v2 / 16) :: (v2 % 16 * 16 + v3 / 4) :: (v3 % 4 * 64 + v4) :: bs)
      | _, _, _, _, _ => none
  | _ => none

/-- Characters that base64 encoding can emit. -/
def isB64Sym (c : Char) : Bool := (b64Val c).isSome || c == '='

/-! ## The marker patterns of `html_io.rs`

`C2PA_REGEX_CAPTURE  = (?s)<script[^>]*type=["']application/c2pa-manifest["'][^>]*>(.*?)</script>`
`C2PA_REGEX_FULL     = (?s)\s*<script[^>]*type=["']application/c2pa-manifest["'][^>]*>.*?</script>\s*`
`HTML_HEAD_TAG       = (?i)<head[^>]*>`
and `write_cai`'s body pattern `(?i)\s*</body>`.

The opening-tag pattern `<script[^>]*type=["']TYPE["'][^>]*>` matches at `i`
iff `<script` occurs at `i`, the tag ends at the first `>` at or after
`i + 7` (both `[^>]*` pieces and the quoted type value are `>`-free, so no
other end position is possible), and a `type=` attribute with the exact
quoted value starts somewhere before that `>` (it then also ends before it,
again because the attribute text is `>`-free). The lazy `(.*?)` with `(?s)`
captures up to the first `</script>` after the opening tag. Matching is
leftmost-first, as in the `regex` crate. -/

def scriptLit : List Char := "<script".data

def closeLit : List Char := "</script>".data

def dqAttr : List Char := "type=\"application/c2pa-manifest\"".data

def sqAttr : List Char :=
  "type=".data ++ Char.ofNat 39 :: "application/c2pa-manifest".data ++ [Char.ofNat 39]

def scriptOpenLit : List Char := "<script type=\"application/c2pa-manifest\">".data

def bodyLit : List Char := "</body>".data

def headLit : List Char := "<head".data

def typeAttrAt (s : List Char) (j : Nat) : Bool := litAt s j dqAttr || litAt s j sqAttr

/-- End (exclusive) of a match of the marker-opening pattern starting at `i`. -/
def openEndAt (s : List Char) (i : Nat) : Option Nat :=
  if litAt s i scriptLit then
    match firstFrom (fun g => s.getD g 'x' == '>') (i + 7) (s.length - (i + 7)) with
    | some g =>
      if (firstFrom (fun j => typeAttrAt s j) (i + 7) (g - (i + 7))).isSome then
        some (g + 1)
      else none
    | none => none
  else none

/-- A match of `C2PA_REGEX_CAPTURE` starting at `i`: returns the capture
group's `(start, end)` — the encoded body between the opening tag and the
first subsequent `</script>`. -/
def capAt (s : List Char) (i : Nat) : Option (Nat × Nat) :=
  match openEndAt s i with
  | some b =>
    match firstFrom (fun k => litAt s k closeLit) b (s.length - b) with
    | some e => some (b, e)
    | none => none
  | none => none

/-- Leftmost match of `C2PA_REGEX_CAPTURE`: `(matchStart, bodyStart, bodyEnd)`. -/
def captureFirst (s : List Char) : Option (Nat × Nat × Nat) :=
  match firstFrom (fun i => (capAt s i).isSome) 0 s.length with
  | some i =>
    match capAt s i with
    | some be => some (i, be.1, be.2)
    | none => none
  | none => none

/-- Leftmost match span of `C2PA_REGEX_FULL`.  Its leading `\s*` extends the
leftmost capture match backwards over the whitespace run before the `<` of
the opening tag (an earlier start is impossible: any whitespace run reaching
a later opening tag would have to cross that non-whitespace `<`), and its
trailing `\s*` greedily extends past `</script>`. -/
def fullFirst (s : List Char) : Option (Nat × Nat) :=
  match captureFirst s with
  | some (i0, _, e0) => some (wsRunStart s i0, wsRunEnd s (e0 + 9))
  | none => none

/-- Leftmost match span of `(?i)\s*</body>`; same whitespace-run reasoning. -/
def bodyFirst (s : List Char) : Option (Nat × Nat) :=
  match firstFrom (fun k => ciLitAt s k bodyLit) 0 s.length with
  | some k => some (wsRunStart s k, k + 7)
  | none => none

/-- End (exclusive) of a match of `(?i)<head[^>]*>` starting at `i`. -/
def headEndAt (s : List Char) (i : Nat) : Option Nat :=
  if ciLitAt s i headLit then
    match firstFrom (fun g => s.getD g 'x' == '>') (i + 5) (s.length - (i + 5)) with
    | some g => some (g + 1)
    | none => none
  else none

/-- End of the leftmost match of `HTML_HEAD_TAG`. -/
def headFirst (s : List Char) : Option Nat :=
  match firstFrom (fun i => (headEndAt s i).isSome) 0 s.length with
  | some i => headEndAt s i
  | none => none

/-! ## The operations of `html_io.rs` (pure core)

Errors: `jumbfNotFound` is `Error::JumbfNotFound`; `invalidAsset` is
`Error::InvalidAsset("HTML manifest bad base64 encoding")` — the spec's
`MalformedPayload` taxon. IO errors cannot arise in the pure model. -/

inductive CaiError : Type
  | jumbfNotFound
  | invalidAsset
deriving DecidableEq

inductive CRes (α : Type) : Type
  | ok (v : α)
  | err (e : CaiError)
deriving DecidableEq

/-- Insertion point when no manifest body was captured: right after the
leftmost `<head...>` tag, else the initial `0`. -/
def headPoint (doc : List Char) : Nat := (headFirst doc).getD 0

/-- Embedding of `detect_manifest_location` (html_io.rs:264-301). -/
def detectManifestLocation (doc : List Char) : CRes (Option (List Nat) × Nat) :=
  match captureFirst doc with
  | some (_, b0, e0) =>
    if (strTrim ((doc.drop b0).take (e0 - b0))).isEmpty then CRes.ok (none, headPoint doc)
    else
      match b64decode (strTrim ((doc.drop b0).take (e0 - b0))) with
      | some m => CRes.ok (some m, b0)
      | none => CRes.err CaiError.invalidAsset
  | none => CRes.ok (none, headPoint doc)

/-- Embedding of `read_cai` (html_io.rs:40-49). -/
def readCaiDoc (doc : List Char) : CRes (List Nat) :=
  match detectManifestLocation doc with
  | CRes.err e => CRes.err e
  | CRes.ok (some d, _) =>
    if d.isEmpty then CRes.err CaiError.jumbfNotFound else CRes.ok d
  | CRes.ok (none, _) => CRes.err CaiError.jumbfNotFound

/-- The replacement text `<script type="application/c2pa-manifest">{b64}</script>`. -/
def manifestScript (P : List Nat) : List Char := scriptOpenLit ++ b64encode P ++ closeLit

/-- Embedding of `write_cai` (html_io.rs:60-96): replace the first full-marker
match, else insert before the first `(?i)\s*</body>` match (the replacement
ends in the lowercase literal `</body>`), else append after the trimmed end. -/
def writeCaiDoc (doc : List Char) (P : List Nat) : List Char :=
  match fullFirst doc with
  | some (a0, b0) => doc.take a0 ++ manifestScript P ++ doc.drop b0
  | none =>
    match bodyFirst doc with
    | some (a0, b0) => doc.take a0 ++ (manifestScript P ++ bodyLit) ++ doc.drop b0
    | none => trimEndWs doc ++ manifestScript P

/-- Embedding of `remove_cai_store_from_stream` (html_io.rs:140-158):
`Regex::replace` deletes only the leftmost full-marker match. -/
def removeCaiDoc (doc : List Char) : List Char :=
  match fullFirst doc with
  | some (a0, b0) => doc.take a0 ++ doc.drop b0
  | none => doc

/-- The `"placeholder manifest"` bytes of `add_required_segs_to_stream`. -/
def placeholderBytes : List Nat := ("placeholder manifest".data).map Char.toNat

/-- Embedding of `add_required_segs_to_stream` (html_io.rs:229-260), value of
the produced output buffer. -/
def addRequiredSegsDoc (doc : List Char) : CRes (List Char) :=
  match detectManifestLocation doc with
  | CRes.err e => CRes.err e
  | CRes.ok (mopt, _) =>
    let need : Bool := match mopt with
      | some m => m.isEmpty
      | none => true
    if need then CRes.ok (writeCaiDoc doc placeholderBytes) else CRes.ok doc

inductive HashBlockObjectType : Type
  | Cai
  | Other
deriving DecidableEq

structure HashObjectPositions : Type where
  offset : Nat
  length : Nat
  htype : HashBlockObjectType
deriving DecidableEq

/-- Embedding of `get_object_locations_from_stream` (html_io.rs:99-137). -/
def getObjectLocationsDoc (doc : List Char) : CRes (List HashObjectPositions) :=
  match addRequiredSegsDoc doc with
  | CRes.err e => CRes.err e
  | CRes.ok buffer =>
    match detectManifestLocation buffer with
    | CRes.err e => CRes.err e
    | CRes.ok (none, _) => CRes.err CaiError.jumbfNotFound
    | CRes.ok (some manifest, start) =>
      let b64Len := (b64encode manifest).length
      CRes.ok
        [⟨start, b64Len, HashBlockObjectType.Cai⟩,
         ⟨0, start, HashBlockObjectType.Other⟩,
         ⟨start + b64Len, buffer.length - (start + b64Len), HashBlockObjectType.Other⟩]

/-! ## Derived notions used by the claims -/

/-- Number of positions at which the inline-marker opening tag matches:
the count of inline markers in a document. -/
def inlineMarkerOpenCount (s : List Char) : Nat :=
  (List.range s.length).countP (fun i => (openEndAt s i).isSome)

/-- Documents containing no occurrence of the (case-sensitive) literal
`<script` — in particular no inline marker and no marker-like fragment. -/
def noScriptOpen (doc : List Char) : Prop :=
  ∀ i, i < doc.length → litAt doc i scriptLit = false

instance (doc : List Char) : Decidable (noScriptOpen doc) :=
  Nat.decidableBallLT doc.length _

/-- The regions cover `[0, L)` exactly once each: every position below `L`
lies in exactly one region, and no region reaches past `L`. -/
def coversOnce (regs : List HashObjectPositions) (L : Nat) : Prop :=
  (∀ x, x < L →
    regs.countP (fun r => decide (r.offset ≤ x ∧ x < r.offset + r.length)) = 1) ∧
  ∀ r ∈ regs, r.offset + r.length ≤ L

/-! ## Concrete documents referenced by witnesses and counterexamples -/

def docC9 : List Char := "<html><head></head><body></body></html>".data

def embeddedC9 : List Char :=
  "<html><head></head><body><script type=\"application/c2pa-manifest\">QUI=</script></body></html>".data

/-- A document whose only content is a dangling (unclosed) marker-opening tag. -/
def docDangling : List Char := "<script type=\"application/c2pa-manifest\">".data

def markerAB : List Char := "<script type=\"application/c2pa-manifest\">QUI=</script>".data

def docTwoMarkers : List Char := markerAB ++ markerAB

def docMalformed : List Char :=
  "<html><head></head><body><script type=\"application/c2pa-manifest\">!!</script></body></html>".data

def docBodyUpper : List Char := "<p></BODY>".data

/-- Buffer produced by `add_required_segs_to_stream` on `docC9`. -/
def bufferC2 : List Char :=
  "<html><head></head><body><script type=\"application/c2pa-manifest\">cGxhY2Vob2xkZXIgbWFuaWZlc3Q=</script></body></html>".data

def regsC2 : List HashObjectPositions :=
  [⟨66, 28, HashBlockObjectType.Cai⟩, ⟨0, 66, HashBlockObjectType.Other⟩,
   ⟨94, 23, HashBlockObjectType.Other⟩]

/-! ## Stream layer

The source functions act on `CAIRead` streams. A stream is content plus a
read/write position; `rewind`, `read_to_string` (read from the position to
the end) and `write_all` (overwrite at the position) are the only
operations the embedded functions use. Each stream-level function returns
its result together with the streams it was handed, so mutation of the
caller's streams is explicit. -/

structure IoStream : Type where
  data : List Char
  pos : Nat

def rewindS (s : IoStream) : IoStream := ⟨s.data, 0⟩

def readToEndS (s : IoStream) : List Char × IoStream :=
  (s.data.drop s.pos, ⟨s.data, s.data.length⟩)

def writeAllS (s : IoStream) (out : List Char) : IoStream :=
  ⟨s.data.take s.pos ++ out ++ s.data.drop (s.pos + out.length), s.pos + out.length⟩

/-- Stream-level `detect_manifest_location`: rewind, read all, scan. -/
def detectS (s : IoStream) : CRes (Option (List Nat) × Nat) × IoStream :=
  (detectManifestLocation (readToEndS (rewindS s)).1, (readToEndS (rewindS s)).2)

/-- Stream-level `write_cai`: rewind and read the input, rewind the output
and overwrite it with the updated document. -/
def writeCaiS (input output : IoStream) (P : List Nat) :
    CRes Unit × IoStream × IoStream :=
  (CRes.ok (), (readToEndS (rewindS input)).2,
   writeAllS (rewindS output) (writeCaiDoc (readToEndS (rewindS input)).1 P))

/-- Stream-level `add_required_segs_to_stream`: scan the input; if no
non-empty manifest exists, write a placeholder-embedded copy to the output
stream, else copy the input to the output verbatim. -/
def addRequiredSegsS (input output : IoStream) : CRes Unit × IoStream × IoStream :=
  match detectS input with
  | (CRes.err e, i2) => (CRes.err e, i2, output)
  | (CRes.ok (mopt, _), i2) =>
    let need : Bool := match mopt with
      | some m => m.isEmpty
      | none => true
    if need then writeCaiS i2 output placeholderBytes
    else
      (CRes.ok (), (readToEndS (rewindS i2)).2,
       writeAllS (rewindS output) (readToEndS (rewindS i2)).1)

/-- Stream-level `get_object_locations_from_stream`: the output buffer is a
fresh in-memory cursor (`⟨[], 0⟩`); the input stream is only scanned. -/
def getObjectLocationsS (input : IoStream) :
    CRes (List HashObjectPositions) × IoStream :=
  match addRequiredSegsS input ⟨[], 0⟩ with
  | (CRes.err e, i2, _) => (CRes.err e, i2)
  | (CRes.ok _, i2, buf) =>
    match detectS ⟨buf.data, 0⟩ with
    | (CRes.err e, _) => (CRes.err e, i2)
    | (CRes.ok (none, _), _) => (CRes.err CaiError.jumbfNotFound, i2)
    | (CRes.ok (some manifest, start), _) =>
      (CRes.ok
        [⟨start, (b64encode manifest).length, HashBlockObjectType.Cai⟩,
         ⟨0, start, HashBlockObjectType.Other⟩,
         ⟨start + (b64encode manifest).length,
           buf.data.length - (start + (b64encode manifest).length),
           HashBlockObjectType.Other⟩], i2)

/-! ## Sidecar strategy (spec §4.4)

Modelled from the spec: the sidecar components (`sidecar_path`, `write`,
`read` of the Sidecar Reference Manager) are not present under `src/` —
only the inline strategy is implemented there. The definitions below follow
the spec's words: a fixed literal suffix appended to the existing
extension; a reference marker — an element carrying a fixed relation name
and an href-style path attribute — located by exact, case-sensitive
substring match on the relation attribute in a line-based search; a
companion file holding the payload verbatim; insertion into the head
section, replacing any pre-existing marker line, with prepend-at-top as the
degraded fallback. The concrete marker text stands in for the spec's
unnamed fixed syntax. -/

/-- Modelled from the spec: the fixed literal sidecar suffix. -/
def sidecarSuffix : List Char := "c2pa".data

/-- Modelled from the spec: `sidecar_path(document_path)` appends the fixed
suffix to the existing extension (`name.ext` → `name.ext.<suffix>`). -/
def sidecarPath (documentPath : List Char) : List Char :=
  documentPath ++ ('.' :: sidecarSuffix)

def relAttr : List Char := "rel=\"c2pa-manifest\"".data

def hrefKey : List Char := "href=\"".data

def refPre : List Char := "<link rel=\"c2pa-manifest\" href=\"".data

def refSuf : List Char := "\">".data

/-- Modelled from the spec: the reference marker line for a target path. -/
def refMarkerLine (target : List Char) : List Char := refPre ++ (target ++ refSuf)

/-- Exact substring match on the relation attribute, case-sensitive. -/
def isRefMarkerLine (line : List Char) : Bool :=
  (firstFrom (fun i => litAt line i relAttr) 0 line.length).isSome

/-- Extract the href attribute value: the text between the first `href="`
and the next `"`. -/
def hrefOf (line : List Char) : Option (List Char) :=
  match firstFrom (fun i => litAt line i hrefKey) 0 line.length with
  | some i =>
    match firstFrom (fun k => line.getD k 'x' == '"') (i + 6) (line.length - (i + 6)) with
    | some en => some ((line.drop (i + 6)).take (en - (i + 6)))
    | none => none
  | none => none

/-- A flat file system: an association list from paths to byte contents. -/
def Fs : Type := List (List Char × List Nat)

def fsWrite (fs : Fs) (p : List Char) (bytes : List Nat) : Fs := (p, bytes) :: fs

def fsRead (fs : Fs) (p : List Char) : Option (List Nat) :=
  match fs.find? (fun e => decide (e.1 = p)) with
  | some e => some e.2
  | none => none

def containsHeadTag (line : List Char) : Bool :=
  (firstFrom (fun i => ciLitAt line i headLit) 0 line.length).isSome

def replaceFirstRef : List (List Char) → List Char → List (List Char)
  | [], _ => []
  | l :: rest, m => if isRefMarkerLine l then m :: rest else l :: replaceFirstRef rest m

def insertAfterHead : List (List Char) → List Char → List (List Char)
  | [], m => [m]
  | l :: rest, m => if containsHeadTag l then l :: m :: rest else l :: insertAfterHead rest m

/-- Modelled from the spec: place the marker line — replace a pre-existing
one, else insert after the head-opening line, else prepend at the top. -/
def sidecarInsertMarker (lines : List (List Char)) (m : List Char) : List (List Char) :=
  if lines.any isRefMarkerLine then replaceFirstRef lines m
  else if lines.any containsHeadTag then insertAfterHead lines m
  else m :: lines

/-- Modelled from the spec: `write(document_path, payload)` writes the
payload verbatim to the sidecar path and inserts/updates the marker. -/
def sidecarWrite (fs : Fs) (docPath : List Char) (docLines : List (List Char))
    (P : List Nat) : Fs × List (List Char) :=
  (fsWrite fs (sidecarPath docPath) P,
   sidecarInsertMarker docLines (refMarkerLine (sidecarPath docPath)))

/-- Modelled from the spec: `read(document)` scans line-by-line for the
reference marker, opens the referenced path and returns its full contents;
`JumbfNotFound` when no marker or no file. -/
def sidecarRead (fs : Fs) (docLines : List (List Char)) : CRes (List Nat) :=
  match docLines.find? isRefMarkerLine with
  | some l =>
    match hrefOf l with
    | some target =>
      match fsRead fs target with
      | some bytes => CRes.ok bytes
      | none => CRes.err CaiError.jumbfNotFound
    | none => CRes.err CaiError.jumbfNotFound
  | none => CRes.err CaiError.jumbfNotFound

theorem firstFrom_eq_some {p : Nat → Bool} {i fuel j : Nat} :
    firstFrom p i fuel = some j ↔
      (i ≤ j ∧ j < i + fuel ∧ p j = true ∧ ∀ k, i ≤ k → k < j → p k = false) := by
  induction fuel generalizing i with
  | zero =>
    simp only [firstFrom]
    constructor
    · intro h; exact absurd h (by simp)
    · rintro ⟨h1, h2, _, _⟩; omega
  | succ n ih =>
    simp only [firstFrom]
    by_cases h : p i
    · rw [if_pos h]
      constructor
      · rintro he
        injection he with he
        subst he
        exact ⟨Nat.le_refl _, by omega, h, fun k hk1 hk2 => by omega⟩
      · rintro ⟨h1, _, hj, hmin⟩
        rcases Nat.eq_or_lt_of_le h1 with heq | hlt
        · exact congrArg some heq
        · have := hmin i (Nat.le_refl _) hlt
          rw [h] at this; exact absurd this (by simp)
    · rw [if_neg h]
      rw [ih]
      constructor
      · rintro ⟨h1, h2, hj, hmin⟩
        refine ⟨by omega, by omega, hj, fun k hk1 hk2 => ?_⟩
        rcases Nat.eq_or_lt_of_le hk1 with heq | hlt
        · subst heq; exact Bool.of_not_eq_true h
        · exact hmin k hlt hk2
      · rintro ⟨h1, h2, hj, hmin⟩
        have hij : i ≠ j := by
          intro he; subst he; rw [hj] at h; exact h rfl
        refine ⟨by omega, by omega, hj, fun k hk1 hk2 => hmin k (by omega) hk2⟩

theorem firstFrom_eq_none {p : Nat → Bool} {i fuel : Nat} :
    firstFrom p i fuel = none ↔ ∀ k, i ≤ k → k < i + fuel → p k = false := by
  induction fuel generalizing i with
  | zero =>
    simp only [firstFrom]
    constructor
    · intro _ k h1 h2; omega
    · intro _; trivial
  | succ n ih =>
    simp only [firstFrom]
    by_cases h : p i
    · rw [if_pos h]
      constructor
      · intro he; exact absurd he (by simp)
      · intro hall
        have := hall i (Nat.le_refl _) (by omega)
        rw [h] at this; exact absurd this (by simp)
    · rw [if_neg h]
      rw [ih]
      constructor
      · intro hall k hk1 hk2
        rcases Nat.eq_or_lt_of_le hk1 with heq | hlt
        · subst heq; exact Bool.of_not_eq_true h
        · exact hall k hlt (by omega)
      · intro hall k hk1 hk2
        exact hall k (by omega) (by omega)

theorem firstFrom_isSome {p : Nat → Bool} {i fuel : Nat} :
    (firstFrom p i fuel).isSome = true ↔ ∃ k, i ≤ k ∧ k < i + fuel ∧ p k = true := by
  constructor
  · intro hs
    rcases Option.isSome_iff_exists.mp hs with ⟨j, hj⟩
    rw [firstFrom_eq_some] at hj
    exact ⟨j, hj.1, hj.2.1, hj.2.2.1⟩
  · rintro ⟨k, h1, h2, hk⟩
    rcases hf : firstFrom p i fuel with _ | j
    · rw [firstFrom_eq_none] at hf
      rw [hf k h1 h2] at hk
      exact absurd hk (by simp)
    · simp

/-! ## List-indexing helpers -/

theorem getD_append_left {α : Type} {l₁ l₂ : List α} {n : Nat} {d : α}
    (h : n < l₁.length) : (l₁ ++ l₂).getD n d = l₁.getD n d := by
  induction l₁ generalizing n with
  | nil => simp at h
  | cons a t ih =>
    cases n with
    | zero => rfl
    | succ m =>
      simp only [List.cons_append, List.getD_cons_succ]
      exact ih (by simpa using h)

theorem getD_append_right {α : Type} {l₁ l₂ : List α} {n : Nat} {d : α} :
    (l₁ ++ l₂).getD (l₁.length + n) d = l₂.getD n d := by
  induction l₁ with
  | nil => simp
  | cons a t ih =>
    simp only [List.cons_append, List.length_cons]
    have : t.length + 1 + n = (t.length + n) + 1 := by omega
    rw [this, List.getD_cons_succ, ih]

theorem drop_append_len {α : Type} {l₁ l₂ : List α} {n : Nat} :
    (l₁ ++ l₂).drop (l₁.length + n) = l₂.drop n := by
  induction l₁ with
  | nil => simp
  | cons a t ih =>
    simp only [List.cons_append, List.length_cons]
    have : t.length + 1 + n = (t.length + n) + 1 := by omega
    rw [this, List.drop_succ_cons, ih]

theorem take_append_le {α : Type} {l₁ l₂ : List α} {n : Nat}
    (h : n ≤ l₁.length) : (l₁ ++ l₂).take n = l₁.take n := by
  induction l₁ generalizing n with
  | nil =>
    simp only [List.length_nil, Nat.le_zero] at h
    subst h; simp
  | cons a t ih =>
    cases n with
    | zero => rfl
    | succ m =>
      simp only [List.cons_append, List.take_succ_cons]
      rw [ih (by simpa using h)]

theorem take_append_exact {α : Type} {l₁ l₂ : List α} :
    (l₁ ++ l₂).take l₁.length = l₁ := by
  rw [take_append_le (Nat.le_refl _), List.take_length]

theorem drop_append_exact {α : Type} {l₁ l₂ : List α} :
    (l₁ ++ l₂).drop l₁.length = l₂ := by
  have h := @drop_append_len α l₁ l₂ 0
  rw [Nat.add_zero] at h
  rw [h, List.drop_zero]

theorem getD_take {α : Type} {l : List α} {m n : Nat} {d : α} (h : n < m) :
    (l.take m).getD n d = l.getD n d := by
  induction l generalizing m n with
  | nil => simp
  | cons a t ih =>
    cases m with
    | zero => omega
    | succ k =>
      cases n with
      | zero => rfl
      | succ j =>
        simp only [List.take_succ_cons, List.getD_cons_succ]
        exact ih (by omega)

theorem getD_drop {α : Type} {l : List α} {m n : Nat} {d : α} :
    (l.drop m).getD n d = l.getD (m + n) d := by
  induction l generalizing m with
  | nil => simp
  | cons a t ih =>
    cases m with
    | zero => simp
    | succ k =>
      simp only [List.drop_succ_cons]
      have : k + 1 + n = (k + n) + 1 := by omega
      rw [this, List.getD_cons_succ, ih]

theorem getD_of_forall_mem {α : Type} {l : List α} {P : α → Prop} {n : Nat} {d : α}
    (hall : ∀ a ∈ l, P a) (h : n < l.length) : P (l.getD n d) := by
  induction l generalizing n with
  | nil => simp at h
  | cons a t ih =>
    cases n with
    | zero => exact hall a (by simp)
    | succ m =>
      simp only [List.getD_cons_succ]
      exact ih (fun x hx => hall x (by simp [hx])) (by simpa using h)

theorem litAt_true_iff {s : List Char} {i : Nat} {lit : List Char} :
    litAt s i lit = true ↔ (s.drop i).take lit.length = lit := by
  simp [litAt]

theorem litAt_length_le {s : List Char} {i : Nat} {lit : List Char}
    (hne : lit ≠ []) (h : litAt s i lit = true) : i + lit.length ≤ s.length := by
  rw [litAt_true_iff] at h
  have hlen : ((s.drop i).take lit.length).length = lit.length := by rw [h]
  rw [List.length_take, List.length_drop] at hlen
  have hpos : 0 < lit.length := List.length_pos.mpr hne
  omega

theorem litAt_getD {s : List Char} {i : Nat} {lit : List Char} {d : Char}
    (h : litAt s i lit = true) {j : Nat} (hj : j < lit.length) :
    s.getD (i + j) d = lit.getD j d := by
  rw [litAt_true_iff] at h
  rw [← h, getD_take hj, getD_drop]

theorem litAt_append_inner {X Y : List Char} {j : Nat} {lit : List Char} :
    litAt (X ++ Y) (X.length + j) lit = litAt Y j lit := by
  unfold litAt
  rw [drop_append_len]

theorem litAt_of_take {l : List Char} {a i : Nat} {lit : List Char}
    (h : litAt (l.take a) i lit = true) : litAt l i lit = true := by
  rw [litAt_true_iff] at h ⊢
  rw [List.drop_take] at h
  rw [List.take_take] at h
  have hlen : (l.drop i).take (min lit.length (a - i)) = lit := h
  have hmin : min lit.length (a - i) = lit.length := by
    have := congrArg List.length hlen
    rw [List.length_take, List.length_drop] at this
    omega
  rw [hmin] at hlen
  exact hlen

theorem litAt_of_drop {l : List Char} {b j : Nat} {lit : List Char} :
    litAt (l.drop b) j lit = litAt l (b + j) lit := by
  unfold litAt
  rw [List.drop_drop]

theorem litAt_prepend {X Y : List Char} {i : Nat} {lit : List Char}
    (h : i + lit.length ≤ X.length) : litAt (X ++ Y) i lit = litAt X i lit := by
  unfold litAt
  rw [List.drop_append_eq_append_drop]
  have hi : i ≤ X.length := by omega
  rw [Nat.sub_eq_zero_of_le hi, List.drop_zero]
  rw [List.take_append_eq_append_take]
  have hlen : lit.length ≤ (X.drop i).length := by
    rw [List.length_drop]; omega
  rw [Nat.sub_eq_zero_of_le hlen, List.take_zero, List.append_nil]

theorem wsRunStart_le {s : List Char} {i : Nat} : wsRunStart s i ≤ i := by
  induction i with
  | zero => exact Nat.le_refl _
  | succ n ih =>
    unfold wsRunStart
    by_cases h : isWs (s.getD n 'x')
    · rw [if_pos h]; omega
    · rw [if_neg h]

theorem wsRunStart_eq_of_not_ws {s : List Char} {i : Nat}
    (hpos : 0 < i) (h : isWs (s.getD (i - 1) 'x') = false) : wsRunStart s i = i := by
  cases i with
  | zero => omega
  | succ n =>
    unfold wsRunStart
    simp only [Nat.add_sub_cancel] at h
    rw [h]
    simp

theorem wsRunStart_zero {s : List Char} : wsRunStart s 0 = 0 := rfl

theorem wsRunEnd_of_not_ws {s : List Char} {j : Nat}
    (hj : j < s.length) (h : isWs (s.getD j 'x') = false) : wsRunEnd s j = j := by
  unfold wsRunEnd
  have hfuel : s.length - j = (s.length - j - 1) + 1 := by omega
  rw [hfuel]
  unfold firstFrom
  rw [h]
  simp

theorem wsRunEnd_at_length {s : List Char} : wsRunEnd s s.length = s.length := by
  unfold wsRunEnd
  rw [Nat.sub_self]
  rfl

theorem strTrim_length_le {s : List Char} : (strTrim s).length ≤ s.length := by
  unfold strTrim trimEndWs trimStartWs
  calc ((s.drop (wsRunEnd s 0)).take (wsRunStart _ _)).length
      ≤ (s.drop (wsRunEnd s 0)).length := by rw [List.length_take]; omega
    _ ≤ s.length := by rw [List.length_drop]; omega

theorem strTrim_of_no_ws {s : List Char} (h : ∀ c ∈ s, isWs c = false) :
    strTrim s = s := by
  have hstart : trimStartWs s = s := by
    unfold trimStartWs
    cases hs : s with
    | nil => simp
    | cons a t =>
      have h0 : isWs ((a :: t).getD 0 'x') = false := h a (by rw [hs]; simp)
      rw [← hs] at h0 ⊢
      rw [wsRunEnd_of_not_ws (by rw [hs]; simp) h0, List.drop_zero]
  unfold strTrim
  rw [hstart]
  unfold trimEndWs
  cases hs : s with
  | nil => simp
  | cons a t =>
    rw [← hs]
    have hlen : 0 < s.length := by rw [hs]; simp
    have hlast : isWs (s.getD (s.length - 1) 'x') = false := by
      exact getD_of_forall_mem h (by omega)
    rw [wsRunStart_eq_of_not_ws hlen hlast, List.take_length]

theorem b64Val_b64Char : ∀ v, v < 64 → b64Val (b64Char v) = some v := by decide

theorem b64Val_some_char {c : Char} {j : Nat} (h : b64Val c = some j) :
    j < 64 ∧ b64Alphabet.getD j '=' = c := by
  unfold b64Val at h
  rw [firstFrom_eq_some] at h
  exact ⟨by omega, eq_of_beq h.2.2.1⟩

theorem alphabet_plain :
    ∀ j, j < 64 → isWs (b64Alphabet.getD j '=') = false ∧ b64Alphabet.getD j '=' ≠ '<' := by
  decide

theorem b64Val_pad : b64Val '=' = none := by decide

theorem b64Char_ne_pad {v : Nat} (hv : v < 64) : b64Char v ≠ '=' := by
  intro hc
  have h1 := b64Val_b64Char v hv
  rw [hc, b64Val_pad] at h1
  exact absurd h1 (by simp)

theorem isB64Sym_plain {c : Char} (h : isB64Sym c = true) :
    isWs c = false ∧ c ≠ '<' := by
  unfold isB64Sym at h
  rcases Bool.or_eq_true_iff.mp h with h1 | h2
  · rcases Option.isSome_iff_exists.mp h1 with ⟨j, hj⟩
    rcases b64Val_some_char hj with ⟨hlt, hc⟩
    rw [← hc]
    exact alphabet_plain j hlt
  · have : c = '=' := eq_of_beq h2
    subst this
    exact ⟨by decide, by decide⟩

theorem b64Char_sym (v : Nat) : isB64Sym (b64Char v) = true := by
  rcases Nat.lt_or_ge v 64 with h | h
  · unfold isB64Sym
    rw [b64Val_b64Char v h]
    rfl
  · have hpad : b64Char v = '=' := by
      unfold b64Char
      have hlen : b64Alphabet.length ≤ v := by
        have : b64Alphabet.length = 64 := by decide
        omega
      exact List.getD_eq_default _ _ hlen
    rw [hpad]
    rfl

theorem b64encode_syms : ∀ (p : List Nat), ∀ c ∈ b64encode p, isB64Sym c = true
  | [], c, hc => by simp [b64encode] at hc
  | [a], c, hc => by
    simp only [b64encode, List.mem_cons, List.not_mem_nil, or_false] at hc
    rcases hc with rfl | rfl | rfl | rfl
    · exact b64Char_sym _
    · exact b64Char_sym _
    · rfl
    · rfl
  | [a, b], c, hc => by
    simp only [b64encode, List.mem_cons, List.not_mem_nil, or_false] at hc
    rcases hc with rfl | rfl | rfl | rfl
    · exact b64Char_sym _
    · exact b64Char_sym _
    · exact b64Char_sym _
    · rfl
  | a :: b :: d :: rest, c, hc => by
    simp only [b64encode, List.mem_cons] at hc
    rcases hc with rfl | rfl | rfl | rfl | hmem
    · exact b64Char_sym _
    · exact b64Char_sym _
    · exact b64Char_sym _
    · exact b64Char_sym _
    · exact b64encode_syms rest c hmem

theorem b64encode_ne_nil {p : List Nat} (hp : p ≠ []) : b64encode p ≠ [] := by
  match p with
  | [] => exact absurd rfl hp
  | [a] => simp [b64encode]
  | [a, b] => simp [b64encode]
  | a :: b :: c :: rest => simp [b64encode]

theorem b64_roundtrip :
    ∀ (p : List Nat), (∀ x ∈ p, x < 256) → b64decode (b64encode p) = some p
  | [], _ => rfl
  | [a], h => by
    have ha : a < 256 := h a (by simp)
    show b64decode [b64Char (a / 4), b64Char (a % 4 * 16), '=', '='] = some [a]
    unfold b64decode
    rw [if_pos (by exact ⟨rfl, rfl⟩)]
    rw [if_pos rfl]
    rw [b64Val_b64Char _ (by omega), b64Val_b64Char _ (by omega)]
    show (if a % 4 * 16 % 16 = 0 then some [a / 4 * 4 + a % 4 * 16 / 16] else none) =
      some [a]
    rw [if_pos (by omega)]
    have : a / 4 * 4 + a % 4 * 16 / 16 = a := by omega
    rw [this]
  | [a, b], h => by
    have ha : a < 256 := h a (by simp)
    have hb : b < 256 := h b (by simp)
    show b64decode
        [b64Char (a / 4), b64Char (a % 4 * 16 + b / 16), b64Char (b % 16 * 4), '='] =
      some [a, b]
    unfold b64decode
    rw [if_pos (by exact ⟨rfl, rfl⟩)]
    rw [if_neg (b64Char_ne_pad (by omega))]
    rw [b64Val_b64Char _ (by omega), b64Val_b64Char _ (by omega),
      b64Val_b64Char _ (by omega)]
    show (if b % 16 * 4 % 4 = 0 then
        some [a / 4 * 4 + (a % 4 * 16 + b / 16) / 16,
          (a % 4 * 16 + b / 16) % 16 * 16 + b % 16 * 4 / 4]
      else none) = some [a, b]
    rw [if_pos (by omega)]
    have h1 : a / 4 * 4 + (a % 4 * 16 + b / 16) / 16 = a := by omega
    have h2 : (a % 4 * 16 + b / 16) % 16 * 16 + b % 16 * 4 / 4 = b := by omega
    rw [h1, h2]
  | a :: b :: d :: rest, h => by
    have ha : a < 256 := h a (by simp)
    have hb : b < 256 := h b (by simp)
    have hd : d < 256 := h d (by simp)
    show b64decode
        (b64Char (a / 4) :: b64Char (a % 4 * 16 + b / 16) ::
          b64Char (b % 16 * 4 + d / 64) :: b64Char (d % 64) :: b64encode rest) =
      some (a :: b :: d :: rest)
    unfold b64decode
    rw [if_neg (fun hand => b64Char_ne_pad (v := d % 64) (by omega) hand.2)]
    rw [b64Val_b64Char _ (by omega), b64Val_b64Char _ (by omega),
      b64Val_b64Char _ (by omega), b64Val_b64Char _ (by omega)]
    rw [b64_roundtrip rest (fun x hx => h x (by simp [hx]))]
    show some ((a / 4 * 4 + (a % 4 * 16 + b / 16) / 16) ::
        ((a % 4 * 16 + b / 16) % 16 * 16 + (b % 16 * 4 + d / 64) / 4) ::
        ((b % 16 * 4 + d / 64) % 4 * 64 + d % 64) :: rest) =
      some (a :: b :: d :: rest)
    have h1 : a / 4 * 4 + (a % 4 * 16 + b / 16) / 16 = a := by omega
    have h2 : (a % 4 * 16 + b / 16) % 16 * 16 + (b % 16 * 4 + d / 64) / 4 = b := by omega
    have h3 : (b % 16 * 4 + d / 64) % 4 * 64 + d % 64 = d := by omega
    rw [h1, h2, h3]

theorem b64decode_length :
    ∀ (t : List Char) (m : List Nat), b64decode t = some m → (b64encode m).length = t.length
  | [], m, h => by
    have h' : some ([] : List Nat) = some m := h
    injection h' with he
    subst he
    rfl
  | [c1], m, h => by exact absurd h (by simp [b64decode])
  | [c1, c2], m, h => by exact absurd h (by simp [b64decode])
  | [c1, c2, c3], m, h => by exact absurd h (by simp [b64decode])
  | c1 :: c2 :: c3 :: c4 :: rest, m, h => by
    unfold b64decode at h
    by_cases hc : rest.isEmpty = true ∧ c4 = '='
    · rw [if_pos hc] at h
      have hrest : rest = [] := List.isEmpty_iff.mp hc.1
      by_cases h3 : c3 = '='
      · rw [if_pos h3] at h
        cases hv1 : b64Val c1 with
        | none => rw [hv1] at h; exact absurd h (by simp)
        | some v1 =>
          cases hv2 : b64Val c2 with
          | none => rw [hv1, hv2] at h; exact absurd h (by simp)
          | some v2 =>
            rw [hv1, hv2] at h
            have h' : (if v2 % 16 = 0 then some [v1 * 4 + v2 / 16] else none) =
              some m := h
            by_cases hz : v2 % 16 = 0
            · rw [if_pos hz] at h'
              have hm : m = [v1 * 4 + v2 / 16] := by injection h' with he; exact he.symm
              subst hm hrest
              rfl
            · rw [if_neg hz] at h'; exact absurd h' (by simp)
      · rw [if_neg h3] at h
        cases hv1 : b64Val c1 with
        | none => rw [hv1] at h; exact absurd h (by simp)
        | some v1 =>
          cases hv2 : b64Val c2 with
          | none => rw [hv1, hv2] at h; exact absurd h (by simp)
          | some v2 =>
            cases hv3 : b64Val c3 with
            | none => rw [hv1, hv2, hv3] at h; exact absurd h (by simp)
            | some v3 =>
              rw [hv1, hv2, hv3] at h
              have h' : (if v3 % 4 = 0 then
                  some [v1 * 4 + v2 / 16, v2 % 16 * 16 + v3 / 4] else none) =
                some m := h
              by_cases hz : v3 % 4 = 0
              · rw [if_pos hz] at h'
                have hm : m = [v1 * 4 + v2 / 16, v2 % 16 * 16 + v3 / 4] := by
                  injection h' with he; exact he.symm
                subst hm hrest
                rfl
              · rw [if_neg hz] at h'; exact absurd h' (by simp)
    · rw [if_neg hc] at h
      cases hv1 : b64Val c1 with
      | none => rw [hv1] at h; exact absurd h (by simp)
      | some v1 =>
        cases hv2 : b64Val c2 with
        | none => rw [hv1, hv2] at h; exact absurd h (by simp)
        | some v2 =>
          cases hv3 : b64Val c3 with
          | none => rw [hv1, hv2, hv3] at h; exact absurd h (by simp)
          | some v3 =>
            cases hv4 : b64Val c4 with
            | none => rw [hv1, hv2, hv3, hv4] at h; exact absurd h (by simp)
            | some v4 =>
              cases hbs : b64decode rest with
              | none => rw [hv1, hv2, hv3, hv4, hbs] at h; exact absurd h (by simp)
              | some bs =>
                rw [hv1, hv2, hv3, hv4, hbs] at h
                have h' : some ((v1 * 4 + v2 / 16) ::
                    (v2 % 16 * 16 + v3 / 4) :: (v3 % 4 * 64 + v4) :: bs) = some m := h
                have hm : m = (v1 * 4 + v2 / 16) ::
                    (v2 % 16 * 16 + v3 / 4) :: (v3 % 4 * 64 + v4) :: bs := by
                  injection h' with he; exact he.symm
                subst hm
                have ih := b64decode_length rest bs hbs
                simp only [b64encode, List.length_cons]
                rw [ih]

/-! ## Structural facts about the matchers -/

theorem capAt_none_of_no_script {s : List Char} {i : Nat}
    (h : litAt s i scriptLit = false) : capAt s i = none := by
  unfold capAt openEndAt
  rw [h]
  rfl

theorem capAt_spec {s : List Char} {i b e : Nat} (h : capAt s i = some (b, e)) :
    openEndAt s i = some b ∧ litAt s e closeLit = true ∧ b ≤ e ∧ e + 9 ≤ s.length := by
  unfold capAt at h
  cases hop : openEndAt s i with
  | none => rw [hop] at h; exact absurd h (by simp)
  | some b' =>
    rw [hop] at h
    have h2 : (match firstFrom (fun k => litAt s k closeLit) b' (s.length - b') with
      | some e0 => some (b', e0)
      | none => none) = some (b, e) := h
    cases hcl : firstFrom (fun k => litAt s k closeLit) b' (s.length - b') with
    | none =>
      rw [hcl] at h2
      exact absurd h2 (by simp)
    | some e' =>
      rw [hcl] at h2
      have h' : some (b', e') = some (b, e) := h2
      injection h' with hbe
      have hb : b' = b := congrArg Prod.fst hbe
      have he : e' = e := congrArg Prod.snd hbe
      rw [hb] at hop
      rw [hb, he] at hcl
      rw [firstFrom_eq_some] at hcl
      obtain ⟨h1, hlt, h3, _⟩ := hcl
      refine ⟨congrArg some hb, h3, h1, ?_⟩
      have h9 : e + closeLit.length ≤ s.length :=
        litAt_length_le (by decide) h3
      have h9' : closeLit.length = 9 := by decide
      omega

theorem captureFirst_spec {s : List Char} {i b e : Nat}
    (h : captureFirst s = some (i, b, e)) :
    capAt s i = some (b, e) ∧ i < s.length ∧ ∀ k, k < i → capAt s k = none := by
  unfold captureFirst at h
  cases hf : firstFrom (fun j => (capAt s j).isSome) 0 s.length with
  | none => rw [hf] at h; exact absurd h (by simp)
  | some i' =>
    rw [hf] at h
    have h2 : (match capAt s i' with
      | some be => some (i', be.1, be.2)
      | none => none) = some (i, b, e) := h
    cases hcap : capAt s i' with
    | none => rw [hcap] at h2; exact absurd h2 (by simp)
    | some be =>
      rw [hcap] at h2
      have h' : some (i', be.1, be.2) = some (i, b, e) := h2
      injection h' with hx
      have hi : i' = i := congrArg Prod.fst hx
      have hbe : be = (b, e) := by
        have h1 : be.1 = b := congrArg (fun q => q.2.1) hx
        have h2 : be.2 = e := congrArg (fun q => q.2.2) hx
        cases be
        simp only at h1 h2
        rw [h1, h2]
      subst hi
      rw [hbe] at hcap
      rw [firstFrom_eq_some] at hf
      obtain ⟨_, hlt, _, hmin⟩ := hf
      refine ⟨hcap, by omega, fun k hk => ?_⟩
      have := hmin k (by omega) hk
      exact Option.not_isSome_iff_eq_none.mp (by rw [this]; simp)

theorem captureFirst_intro {s : List Char} {i b e : Nat}
    (hcap : capAt s i = some (b, e)) (hlt : i < s.length)
    (hmin : ∀ k, k < i → capAt s k = none) :
    captureFirst s = some (i, b, e) := by
  unfold captureFirst
  have hf : firstFrom (fun j => (capAt s j).isSome) 0 s.length = some i := by
    rw [firstFrom_eq_some]
    refine ⟨Nat.zero_le _, by omega, by rw [hcap]; rfl, fun k _ hk => ?_⟩
    rw [hmin k hk]
    rfl
  rw [hf]
  show (match capAt s i with
    | some be => some (i, be.1, be.2)
    | none => none) = some (i, b, e)
  rw [hcap]

/-- Success of `detect_manifest_location` with a payload bounds the region
arithmetic: the re-encoded payload ends at least nine characters (the
closing tag) before the end of the document. -/
theorem detect_ok_some_bound {doc : List Char} {m : List Nat} {ip : Nat}
    (h : detectManifestLocation doc = CRes.ok (some m, ip)) :
    ip + (b64encode m).length + 9 ≤ doc.length := by
  unfold detectManifestLocation at h
  cases hcf : captureFirst doc with
  | none =>
    rw [hcf] at h
    have h' : CRes.ok ((none : Option (List Nat)), headPoint doc) =
      CRes.ok (some m, ip) := h
    injection h' with hpair
    exact absurd (congrArg Prod.fst hpair) (by simp)
  | some ibe =>
    obtain ⟨i, b, e⟩ := ibe
    rw [hcf] at h
    have h2 : (if (strTrim ((doc.drop b).take (e - b))).isEmpty = true then
        CRes.ok ((none : Option (List Nat)), headPoint doc)
      else
        match b64decode (strTrim ((doc.drop b).take (e - b))) with
        | some m0 => CRes.ok (some m0, b)
        | none => CRes.err CaiError.invalidAsset) = CRes.ok (some m, ip) := h
    by_cases hemp : (strTrim ((doc.drop b).take (e - b))).isEmpty = true
    · rw [if_pos hemp] at h2
      have h' : CRes.ok ((none : Option (List Nat)), headPoint doc) =
        CRes.ok (some m, ip) := h2
      injection h' with hpair
      exact absurd (congrArg Prod.fst hpair) (by simp)
    · rw [if_neg hemp] at h2
      cases hdec : b64decode (strTrim ((doc.drop b).take (e - b))) with
      | none => rw [hdec] at h2; exact absurd h2 (by simp)
      | some m' =>
        rw [hdec] at h2
        have h' : CRes.ok (some m', b) = CRes.ok (some m, ip) := h2
        injection h' with hpair
        have hm : m' = m := by
          have := congrArg Prod.fst hpair
          simpa using this
        have hip : b = ip := congrArg Prod.snd hpair
        subst hm hip
        have hcap := (captureFirst_spec hcf).1
        obtain ⟨_, _, hbe, h9⟩ := capAt_spec hcap
        have hlen := b64decode_length _ _ hdec
        have htr : (strTrim ((doc.drop b).take (e - b))).length ≤ e - b := by
          calc (strTrim ((doc.drop b).take (e - b))).length
              ≤ ((doc.drop b).take (e - b)).length := strTrim_length_le
            _ ≤ e - b := by rw [List.length_take]; omega
        omega

theorem getObjectLocationsDoc_eq {doc buffer : List Char}
    (h : addRequiredSegsDoc doc = CRes.ok buffer) :
    getObjectLocationsDoc doc =
      (match detectManifestLocation buffer with
      | CRes.err e => CRes.err e
      | CRes.ok (none, _) => CRes.err CaiError.jumbfNotFound
      | CRes.ok (some manifest, start) =>
        CRes.ok
          [⟨start, (b64encode manifest).length, HashBlockObjectType.Cai⟩,
           ⟨0, start, HashBlockObjectType.Other⟩,
           ⟨start + (b64encode manifest).length,
             buffer.length - (start + (b64encode manifest).length),
             HashBlockObjectType.Other⟩]) := by
  unfold getObjectLocationsDoc
  rw [h]

/-- C2: whenever `get_object_locations_from_stream` succeeds, its three
regions tile `[0, L)` with no gaps and no overlaps, where `L` is the length
of the in-memory buffer (the possibly placeholder-embedded copy) the offsets
were computed from. -/
theorem hash_regions_partition (doc buffer : List Char) (regs : List HashObjectPositions)
    (hbuf : addRequiredSegsDoc doc = CRes.ok buffer)
    (hregs : getObjectLocationsDoc doc = CRes.ok regs) :
    coversOnce regs buffer.length := by
  rw [getObjectLocationsDoc_eq hbuf] at hregs
  cases hdet : detectManifestLocation buffer with
  | err e =>
    rw [hdet] at hregs
    exact absurd hregs (by simp)
  | ok pair =>
    obtain ⟨mopt, ip⟩ := pair
    cases mopt with
    | none =>
      rw [hdet] at hregs
      exact absurd hregs (by simp)
    | some m =>
      rw [hdet] at hregs
      have h' : CRes.ok
          [⟨ip, (b64encode m).length, HashBlockObjectType.Cai⟩,
           ⟨0, ip, HashBlockObjectType.Other⟩,
           ⟨ip + (b64encode m).length,
             buffer.length - (ip + (b64encode m).length),
             HashBlockObjectType.Other⟩] = CRes.ok regs := hregs
      injection h' with he
      subst he
      have hbound := detect_ok_some_bound hdet
      constructor
      · intro x hx
        simp only [List.countP_cons, List.countP_nil, decide_eq_true_eq]
        split_ifs <;> omega
      · intro r hr
        simp only [List.mem_cons, List.not_mem_nil, or_false] at hr
        rcases hr with rfl | rfl | rfl <;> dsimp only <;> omega

/-- Witness for C2 at the concrete document `docC9`. -/
theorem hash_regions_partition_witness :
    addRequiredSegsDoc docC9 = CRes.ok bufferC2 ∧
    getObjectLocationsDoc docC9 = CRes.ok regsC2 ∧
    coversOnce regsC2 bufferC2.length :=
  ⟨by decide, by decide,
    hash_regions_partition docC9 bufferC2 regsC2 (by decide) (by decide)⟩

/-- C7 (amended): the three regions are emitted with the Excluded (`Cai`)
region first — `[offset, offset+len)` `Cai`, then `[0, offset)` `Other`,
then `[offset+len, total)` `Other` — where `offset` is the captured body's
start and `len` the length of the re-encoded payload. -/
theorem hash_regions_order (doc buffer : List Char) (m : List Nat) (ip : Nat)
    (hbuf : addRequiredSegsDoc doc = CRes.ok buffer)
    (hdet : detectManifestLocation buffer = CRes.ok (some m, ip)) :
    getObjectLocationsDoc doc = CRes.ok
      [⟨ip, (b64encode m).length, HashBlockObjectType.Cai⟩,
       ⟨0, ip, HashBlockObjectType.Other⟩,
       ⟨ip + (b64encode m).length, buffer.length - (ip + (b64encode m).length),
         HashBlockObjectType.Other⟩] := by
  rw [getObjectLocationsDoc_eq hbuf, hdet]

/-- Counterexample to C7 as stated: on `docC9` the first emitted region is
the excluded `Cai` region at offset 66, not the Included region `[0, 66)`. -/
theorem hash_regions_order_counterexample :
    getObjectLocationsDoc docC9 = CRes.ok regsC2 ∧
    regsC2.head? = some ⟨66, 28, HashBlockObjectType.Cai⟩ ∧
    (⟨66, 28, HashBlockObjectType.Cai⟩ : HashObjectPositions) ≠
      ⟨0, 66, HashBlockObjectType.Other⟩ := by
  refine ⟨by decide, by decide, by decide⟩

/-- Witness for C7 (amended) at the concrete document `docC9`. -/
theorem hash_regions_order_witness :
    addRequiredSegsDoc docC9 = CRes.ok bufferC2 ∧
    detectManifestLocation bufferC2 = CRes.ok (some placeholderBytes, 66) ∧
    getObjectLocationsDoc docC9 = CRes.ok
      [⟨66, (b64encode placeholderBytes).length, HashBlockObjectType.Cai⟩,
       ⟨0, 66, HashBlockObjectType.Other⟩,
       ⟨66 + (b64encode placeholderBytes).length,
         bufferC2.length - (66 + (b64encode placeholderBytes).length),
         HashBlockObjectType.Other⟩] :=
  ⟨by decide, by decide,
    hash_regions_order docC9 bufferC2 placeholderBytes 66 (by decide) (by decide)⟩

/-- C4: a document whose first inline marker has a non-empty (after
trimming) but undecodable captured body makes scanning return the
malformed-payload error (`InvalidAsset`), for `detect_manifest_location`
and `read_cai` alike — never success with an empty or partial payload. -/
theorem malformed_base64_errors (doc : List Char) (i b e : Nat)
    (hcap : captureFirst doc = some (i, b, e))
    (hne : (strTrim ((doc.drop b).take (e - b))).isEmpty = false)
    (hbad : b64decode (strTrim ((doc.drop b).take (e - b))) = none) :
    detectManifestLocation doc = CRes.err CaiError.invalidAsset ∧
    readCaiDoc doc = CRes.err CaiError.invalidAsset := by
  have hdet : detectManifestLocation doc = CRes.err CaiError.invalidAsset := by
    unfold detectManifestLocation
    rw [hcap]
    show (if (strTrim ((doc.drop b).take (e - b))).isEmpty = true then
        CRes.ok ((none : Option (List Nat)), headPoint doc)
      else
        match b64decode (strTrim ((doc.drop b).take (e - b))) with
        | some m0 => CRes.ok (some m0, b)
        | none => CRes.err CaiError.invalidAsset) = CRes.err CaiError.invalidAsset
    rw [if_neg (by rw [hne]; simp), hbad]
  refine ⟨hdet, ?_⟩
  unfold readCaiDoc
  rw [hdet]

/-- Witness for C4 at `docMalformed` (captured body `!!`). -/
theorem malformed_base64_errors_witness :
    captureFirst docMalformed = some (25, 66, 68) ∧
    (strTrim ((docMalformed.drop 66).take 2)).isEmpty = false ∧
    b64decode (strTrim ((docMalformed.drop 66).take 2)) = none ∧
    detectManifestLocation docMalformed = CRes.err CaiError.invalidAsset :=
  ⟨by decide, by decide, by decide,
    (malformed_base64_errors docMalformed 25 66 68 (by decide) (by decide)
      (by decide)).1⟩

/-- C5 (amended): `remove_cai_store_from_stream` always succeeds; it deletes
exactly the leftmost full-marker match (with its surrounding whitespace),
and when the input contains no inline marker the output is the input,
byte for byte. -/
theorem remove_first_marker (doc : List Char) :
    (captureFirst doc = none → removeCaiDoc doc = doc) ∧
    (∀ a b2, fullFirst doc = some (a, b2) →
      removeCaiDoc doc = doc.take a ++ doc.drop b2) := by
  constructor
  · intro h
    unfold removeCaiDoc fullFirst
    rw [h]
  · intro a b2 h
    unfold removeCaiDoc
    rw [h]

/-- Counterexample to C5 as stated: on a document holding two markers,
removal deletes only the first; the output still contains marker syntax. -/
theorem remove_leaves_marker_counterexample :
    removeCaiDoc docTwoMarkers = markerAB ∧
    (captureFirst (removeCaiDoc docTwoMarkers)).isSome = true := by
  refine ⟨by decide, by decide⟩

/-- Witness for C5 (amended): the no-marker branch at `docC9` and the
removal branch at `embeddedC9`. -/
theorem remove_first_marker_witness :
    removeCaiDoc docC9 = docC9 ∧
    removeCaiDoc embeddedC9 = embeddedC9.take 25 ++ embeddedC9.drop 79 :=
  ⟨(remove_first_marker docC9).1 (by decide),
   (remove_first_marker embeddedC9).2 25 79 (by decide)⟩

/-- C9: embedding payload `AB` (base64 `QUI=`) into
`<html><head></head><body></body></html>` inserts the marker immediately
before `</body>`, and scanning returns payload `AB` at insertion point 66,
the offset of `QUI=`. -/
theorem concrete_scenario_inline :
    writeCaiDoc docC9 [65, 66] = embeddedC9 ∧
    detectManifestLocation embeddedC9 = CRes.ok (some [65, 66], 66) ∧
    readCaiDoc embeddedC9 = CRes.ok [65, 66] ∧
    litAt embeddedC9 66 ("QUI=".data) = true := by
  refine ⟨by decide, by decide, by decide, by decide⟩

/-- C10: when `write_cai` inserts a new marker via the body branch, the
whole matched span of `(?i)\s*</body>` — whatever its original casing —
is replaced by the marker followed by the lowercase literal `</body>`. -/
theorem body_close_lowercased (doc : List Char) (P : List Nat) (a b2 : Nat)
    (hnofull : captureFirst doc = none) (hbody : bodyFirst doc = some (a, b2)) :
    writeCaiDoc doc P = doc.take a ++ (manifestScript P ++ bodyLit) ++ doc.drop b2 := by
  unfold writeCaiDoc fullFirst
  rw [hnofull, hbody]

/-- Witness for C10: the document `<p></BODY>` comes back with the matched
`</BODY>` rewritten as lowercase `</body>`. -/
theorem body_close_lowercased_witness :
    captureFirst docBodyUpper = none ∧
    bodyFirst docBodyUpper = some (3, 10) ∧
    writeCaiDoc docBodyUpper [65, 66] =
      docBodyUpper.take 3 ++ (manifestScript [65, 66] ++ bodyLit) ++
        docBodyUpper.drop 10 ∧
    writeCaiDoc docBodyUpper [65, 66] =
      "<p><script type=\"application/c2pa-manifest\">QUI=</script></body>".data :=
  ⟨by decide, by decide,
    body_close_lowercased docBodyUpper [65, 66] 3 10 (by decide) (by decide),
    by decide⟩

/-! ## Facts about the concrete marker literals -/

theorem scriptOpenLit_len : scriptOpenLit.length = 41 := by decide

theorem closeLit_len : closeLit.length = 9 := by decide

theorem openLit_no_gt : ∀ j, j < 40 → 7 ≤ j → ¬(scriptOpenLit.getD j 'x' = '>') := by
  decide

theorem openLit_gt_40 : scriptOpenLit.getD 40 'x' = '>' := by decide

theorem openLit_no_lt : ∀ j, j < 41 → 0 < j → ¬(scriptOpenLit.getD j 'x' = '<') := by
  decide

theorem closeLit_no_lt : ∀ j, j < 9 → 0 < j → ¬(closeLit.getD j 'x' = '<') := by decide

theorem closeLit_head : closeLit.getD 0 'x' = '<' := by decide

theorem closeLit_snd : closeLit.getD 1 'x' = '/' := by decide

theorem scriptLit_head : scriptLit.getD 0 'x' = '<' := by decide

theorem scriptLit_snd : scriptLit.getD 1 'x' = 's' := by decide

theorem scriptLit_no_lt : ∀ j, j < 7 → 0 < j → ¬(scriptLit.getD j 'x' = '<') := by decide

theorem bodyLit_no_lt : ∀ j, j < 7 → 0 < j → ¬(bodyLit.getD j 'x' = '<') := by decide

theorem bodyLit_snd : bodyLit.getD 1 'x' = '/' := by decide

theorem bodyLit_head_not_ws : isWs (bodyLit.getD 0 'x') = false := by decide

/-! ## More search helpers -/

theorem wsRunStart_pred_not_ws {s : List Char} {i : Nat}
    (h : 0 < wsRunStart s i) : isWs (s.getD (wsRunStart s i - 1) 'x') = false := by
  induction i with
  | zero => simp [wsRunStart] at h
  | succ m ih =>
    unfold wsRunStart at h ⊢
    by_cases hws : isWs (s.getD m 'x')
    · rw [if_pos hws] at h ⊢
      exact ih h
    · rw [if_neg hws] at h ⊢
      simp only [Nat.add_sub_cancel]
      exact Bool.of_not_eq_true hws

theorem countP_range_unique {n p : Nat} {f : Nat → Bool} (hp : p < n) (hf : f p = true)
    (huniq : ∀ i, i < n → i ≠ p → f i = false) : (List.range n).countP f = 1 := by
  induction n with
  | zero => omega
  | succ m ih =>
    rw [List.range_succ, List.countP_append]
    by_cases hm : p = m
    · subst hm
      have hzero : (List.range p).countP f = 0 := by
        rw [List.countP_eq_zero]
        intro a ha
        rw [List.mem_range] at ha
        rw [huniq a (by omega) (by omega)]
        simp
      rw [hzero]
      simp [hf]
    · have hlt : p < m := by omega
      rw [ih hlt (fun i hi hne => huniq i (by omega) hne)]
      have hfm : f m = false := huniq m (by omega) (by omega)
      simp [hfm]

theorem openEndAt_none_of_not_script {s : List Char} {i : Nat}
    (h : litAt s i scriptLit = false) : openEndAt s i = none := by
  unfold openEndAt
  rw [h]
  rfl

theorem openEndAt_isSome_script {s : List Char} {i : Nat}
    (h : (openEndAt s i).isSome = true) : litAt s i scriptLit = true := by
  cases hb : litAt s i scriptLit with
  | true => rfl
  | false => rw [openEndAt_none_of_not_script hb] at h; exact absurd h (by simp)

theorem litAt_false_of_noScriptOpen {doc : List Char} (h : noScriptOpen doc) :
    ∀ i, litAt doc i scriptLit = false := by
  intro i
  cases hb : litAt doc i scriptLit with
  | false => rfl
  | true =>
    have hle := litAt_length_le (by decide) hb
    have h7 : scriptLit.length = 7 := by decide
    exact absurd hb (by rw [h i (by omega)]; simp)

theorem noScriptOpen_nil : ∀ i, litAt ([] : List Char) i scriptLit = false := by
  intro i
  cases hb : litAt [] i scriptLit with
  | false => rfl
  | true =>
    have hle := litAt_length_le (by decide) hb
    have h7 : scriptLit.length = 7 := by decide
    simp only [List.length_nil] at hle
    omega

theorem noScriptOpen_take {doc : List Char} (h : noScriptOpen doc) (a : Nat) :
    ∀ i, litAt (doc.take a) i scriptLit = false := by
  intro i
  cases hb : litAt (doc.take a) i scriptLit with
  | false => rfl
  | true =>
    have hd := litAt_of_take hb
    exact absurd hd (by rw [litAt_false_of_noScriptOpen h i]; simp)

/-- The tail `</body> ++ doc.drop b2` used by the body branch contains no
`<script` occurrence when `doc` has none. -/
theorem noScriptOpen_body_tail {doc : List Char} (h : noScriptOpen doc) (b2 : Nat) :
    ∀ i, litAt (bodyLit ++ doc.drop b2) i scriptLit = false := by
  intro i
  cases hb : litAt (bodyLit ++ doc.drop b2) i scriptLit with
  | false => rfl
  | true =>
    exfalso
    have hbody7 : bodyLit.length = 7 := by decide
    have hscript7 : scriptLit.length = 7 := by decide
    rcases Nat.lt_or_ge i 7 with hlt | hge
    · rcases Nat.eq_zero_or_pos i with rfl | hpos
      · -- the second character would have to be `s`, but it is `/`
        have h1 := litAt_getD (d := 'x') hb (show 1 < scriptLit.length by decide)
        rw [scriptLit_snd] at h1
        rw [show (0 : Nat) + 1 = 1 from rfl] at h1
        rw [getD_append_left (by omega)] at h1
        rw [bodyLit_snd] at h1
        exact absurd h1 (by decide)
      · -- the first character would have to be `<`
        have h0 := litAt_getD (d := 'x') hb (show 0 < scriptLit.length by decide)
        rw [scriptLit_head, Nat.add_zero] at h0
        rw [getD_append_left (by omega)] at h0
        exact bodyLit_no_lt i hlt hpos h0
    · have he : i = bodyLit.length + (i - 7) := by omega
      rw [he, litAt_append_inner, litAt_of_drop] at hb
      exact absurd hb (by rw [litAt_false_of_noScriptOpen h]; simp)

/-! ## Indexing into an embedded document
`pre ++ (scriptOpenLit ++ (b64encode P ++ (closeLit ++ tail)))` -/

theorem embed_assoc {pre tail : List Char} {P : List Nat} :
    pre ++ (manifestScript P ++ tail) =
      pre ++ (scriptOpenLit ++ (b64encode P ++ (closeLit ++ tail))) := by
  unfold manifestScript
  simp [List.append_assoc]

theorem getD_seg_open {pre tail : List Char} {P : List Nat} {j : Nat} {d : Char}
    (hj : j < 41) :
    (pre ++ (scriptOpenLit ++ (b64encode P ++ (closeLit ++ tail)))).getD
      (pre.length + j) d = scriptOpenLit.getD j d := by
  rw [getD_append_right]
  exact getD_append_left (by rw [scriptOpenLit_len]; exact hj)

theorem getD_seg_enc {pre tail : List Char} {P : List Nat} {j : Nat} {d : Char}
    (hj : j < (b64encode P).length) :
    (pre ++ (scriptOpenLit ++ (b64encode P ++ (closeLit ++ tail)))).getD
      (pre.length + (41 + j)) d = (b64encode P).getD j d := by
  rw [getD_append_right]
  have e1 : (41 : Nat) + j = scriptOpenLit.length + j := by rw [scriptOpenLit_len]
  rw [e1, getD_append_right]
  exact getD_append_left hj

theorem getD_seg_close {pre tail : List Char} {P : List Nat} {j : Nat} {d : Char}
    (hj : j < 9) :
    (pre ++ (scriptOpenLit ++ (b64encode P ++ (closeLit ++ tail)))).getD
      (pre.length + (41 + ((b64encode P).length + j))) d = closeLit.getD j d := by
  rw [getD_append_right]
  have e1 : (41 : Nat) + ((b64encode P).length + j) =
      scriptOpenLit.length + ((b64encode P).length + j) := by rw [scriptOpenLit_len]
  rw [e1, getD_append_right, getD_append_right]
  exact getD_append_left (by rw [closeLit_len]; exact hj)

theorem drop_seg_enc {pre tail : List Char} {P : List Nat} :
    (pre ++ (scriptOpenLit ++ (b64encode P ++ (closeLit ++ tail)))).drop
      (pre.length + 41) = b64encode P ++ (closeLit ++ tail) := by
  rw [drop_append_len]
  have e2 : (41 : Nat) = scriptOpenLit.length := scriptOpenLit_len.symm
  rw [e2, drop_append_exact]

theorem drop_seg_tail {pre tail : List Char} {P : List Nat} :
    (pre ++ (scriptOpenLit ++ (b64encode P ++ (closeLit ++ tail)))).drop
      (pre.length + (41 + ((b64encode P).length + 9))) = tail := by
  rw [drop_append_len]
  have e2 : (41 : Nat) + ((b64encode P).length + 9) =
      scriptOpenLit.length + ((b64encode P).length + 9) := by rw [scriptOpenLit_len]
  rw [e2, drop_append_len, drop_append_len]
  have e3 : (9 : Nat) = closeLit.length := closeLit_len.symm
  rw [e3, drop_append_exact]

theorem length_embed {pre tail : List Char} {P : List Nat} :
    (pre ++ (scriptOpenLit ++ (b64encode P ++ (closeLit ++ tail)))).length =
      pre.length + (41 + ((b64encode P).length + (9 + tail.length))) := by
  simp only [List.length_append]
  rw [scriptOpenLit_len, closeLit_len]

/-! ## Scanning a document with a marker inserted at `pre.length` -/

theorem embedded_open (pre tail : List Char) (P : List Nat) :
    openEndAt (pre ++ (scriptOpenLit ++ (b64encode P ++ (closeLit ++ tail))))
      pre.length = some (pre.length + 41) := by
  have hlen := @length_embed pre tail P
  have hlit : litAt (pre ++ (scriptOpenLit ++ (b64encode P ++ (closeLit ++ tail))))
      pre.length scriptLit = true := by
    have h0 : pre.length = pre.length + 0 := by omega
    rw [h0, litAt_append_inner]
    rw [litAt_prepend (by decide)]
    decide
  unfold openEndAt
  rw [if_pos hlit]
  have hgt : firstFrom
      (fun g => (pre ++ (scriptOpenLit ++ (b64encode P ++ (closeLit ++ tail)))).getD
        g 'x' == '>')
      (pre.length + 7)
      ((pre ++ (scriptOpenLit ++ (b64encode P ++ (closeLit ++ tail)))).length -
        (pre.length + 7)) = some (pre.length + 40) := by
    rw [firstFrom_eq_some]
    refine ⟨by omega, by rw [hlen]; omega, ?_, ?_⟩
    · rw [getD_seg_open (by omega), openLit_gt_40]
      rfl
    · intro k hk1 hk2
      have e1 : k = pre.length + (k - pre.length) := by omega
      rw [e1, getD_seg_open (by omega)]
      exact beq_eq_false_iff_ne.mpr (openLit_no_gt (k - pre.length) (by omega) (by omega))
  rw [hgt]
  have hattr : (firstFrom
      (fun j => typeAttrAt (pre ++ (scriptOpenLit ++ (b64encode P ++ (closeLit ++ tail)))) j)
      (pre.length + 7) (pre.length + 40 - (pre.length + 7))).isSome = true := by
    rw [firstFrom_isSome]
    refine ⟨pre.length + 8, by omega, by omega, ?_⟩
    unfold typeAttrAt
    have hlit8 : litAt (pre ++ (scriptOpenLit ++ (b64encode P ++ (closeLit ++ tail))))
        (pre.length + 8) dqAttr = true := by
      rw [litAt_append_inner]
      rw [litAt_prepend (by decide)]
      decide
    rw [hlit8]
    rfl
  show (if (firstFrom
      (fun j => typeAttrAt (pre ++ (scriptOpenLit ++ (b64encode P ++ (closeLit ++ tail)))) j)
      (pre.length + 7) (pre.length + 40 - (pre.length + 7))).isSome = true then
    some (pre.length + 40 + 1) else none) = some (pre.length + 41)
  rw [if_pos hattr]

theorem embedded_cap (pre tail : List Char) (P : List Nat) :
    capAt (pre ++ (scriptOpenLit ++ (b64encode P ++ (closeLit ++ tail)))) pre.length =
      some (pre.length + 41, pre.length + (41 + (b64encode P).length)) := by
  have hlen := @length_embed pre tail P
  unfold capAt
  rw [embedded_open pre tail P]
  have hclose : firstFrom
      (fun k => litAt (pre ++ (scriptOpenLit ++ (b64encode P ++ (closeLit ++ tail))))
        k closeLit)
      (pre.length + 41)
      ((pre ++ (scriptOpenLit ++ (b64encode P ++ (closeLit ++ tail)))).length -
        (pre.length + 41)) = some (pre.length + (41 + (b64encode P).length)) := by
    rw [firstFrom_eq_some]
    refine ⟨by omega, by rw [hlen]; omega, ?_, ?_⟩
    · rw [litAt_true_iff]
      have e1 : pre.length + (41 + (b64encode P).length) =
          (pre ++ scriptOpenLit ++ b64encode P).length + 0 := by
        simp only [List.length_append]
        rw [scriptOpenLit_len]
        omega
      have e2 : pre ++ (scriptOpenLit ++ (b64encode P ++ (closeLit ++ tail))) =
          (pre ++ scriptOpenLit ++ b64encode P) ++ (closeLit ++ tail) := by
        simp [List.append_assoc]
      rw [e1, e2, drop_append_len, List.drop_zero]
      exact take_append_exact
    · intro k hk1 hk2
      cases hbk : litAt (pre ++ (scriptOpenLit ++ (b64encode P ++ (closeLit ++ tail))))
          k closeLit with
      | false => rfl
      | true =>
        exfalso
        have h0 := litAt_getD (d := 'x') hbk (show 0 < closeLit.length by decide)
        rw [Nat.add_zero, closeLit_head] at h0
        have e1 : k = pre.length + (41 + (k - pre.length - 41)) := by omega
        rw [e1, getD_seg_enc (by omega)] at h0
        have hsym : isB64Sym ((b64encode P).getD (k - pre.length - 41) 'x') = true :=
          getD_of_forall_mem (b64encode_syms P) (by omega)
        exact absurd h0 (isB64Sym_plain hsym).2
  show (match firstFrom
      (fun k => litAt (pre ++ (scriptOpenLit ++ (b64encode P ++ (closeLit ++ tail))))
        k closeLit)
      (pre.length + 41)
      ((pre ++ (scriptOpenLit ++ (b64encode P ++ (closeLit ++ tail)))).length -
        (pre.length + 41)) with
    | some e0 => some (pre.length + 41, e0)
    | none => none) =
    some (pre.length + 41, pre.length + (41 + (b64encode P).length))
  rw [hclose]

theorem embedded_captureFirst (pre tail : List Char) (P : List Nat)
    (honly : ∀ i, litAt (pre ++ (scriptOpenLit ++ (b64encode P ++ (closeLit ++ tail))))
      i scriptLit = true → i = pre.length) :
    captureFirst (pre ++ (scriptOpenLit ++ (b64encode P ++ (closeLit ++ tail)))) =
      some (pre.length, pre.length + 41, pre.length + (41 + (b64encode P).length)) := by
  apply captureFirst_intro (embedded_cap pre tail P)
  · rw [length_embed]; omega
  · intro k hk
    apply capAt_none_of_no_script
    cases hbk : litAt (pre ++ (scriptOpenLit ++ (b64encode P ++ (closeLit ++ tail))))
        k scriptLit with
    | false => rfl
    | true => exact absurd (honly k hbk) (by omega)

theorem detect_eq_of_capture {doc : List Char} {i b e : Nat}
    (h : captureFirst doc = some (i, b, e)) :
    detectManifestLocation doc =
      (if (strTrim ((doc.drop b).take (e - b))).isEmpty = true then
        CRes.ok (none, headPoint doc)
      else
        match b64decode (strTrim ((doc.drop b).take (e - b))) with
        | some m => CRes.ok (some m, b)
        | none => CRes.err CaiError.invalidAsset) := by
  unfold detectManifestLocation
  rw [h]

theorem embedded_detect (pre tail : List Char) (P : List Nat)
    (hP : P ≠ []) (hb : ∀ x ∈ P, x < 256)
    (honly : ∀ i, litAt (pre ++ (scriptOpenLit ++ (b64encode P ++ (closeLit ++ tail))))
      i scriptLit = true → i = pre.length) :
    detectManifestLocation (pre ++ (scriptOpenLit ++ (b64encode P ++ (closeLit ++ tail)))) =
      CRes.ok (some P, pre.length + 41) := by
  have hcf := embedded_captureFirst pre tail P honly
  rw [detect_eq_of_capture hcf]
  have hslice : ((pre ++ (scriptOpenLit ++ (b64encode P ++ (closeLit ++ tail)))).drop
      (pre.length + 41)).take (pre.length + (41 + (b64encode P).length) - (pre.length + 41)) =
      b64encode P := by
    rw [drop_seg_enc]
    have e1 : pre.length + (41 + (b64encode P).length) - (pre.length + 41) =
        (b64encode P).length := by omega
    rw [e1]
    exact take_append_exact
  rw [hslice]
  have htrim : strTrim (b64encode P) = b64encode P :=
    strTrim_of_no_ws (fun c hc => (isB64Sym_plain (b64encode_syms P c hc)).1)
  rw [htrim]
  rw [if_neg (by
    intro hemp
    exact b64encode_ne_nil hP (List.isEmpty_iff.mp hemp))]
  rw [b64_roundtrip P hb]

theorem embedded_read (pre tail : List Char) (P : List Nat)
    (hP : P ≠ []) (hb : ∀ x ∈ P, x < 256)
    (honly : ∀ i, litAt (pre ++ (scriptOpenLit ++ (b64encode P ++ (closeLit ++ tail))))
      i scriptLit = true → i = pre.length) :
    readCaiDoc (pre ++ (scriptOpenLit ++ (b64encode P ++ (closeLit ++ tail)))) =
      CRes.ok P := by
  unfold readCaiDoc
  rw [embedded_detect pre tail P hP hb honly]
  show (if P.isEmpty = true then CRes.err CaiError.jumbfNotFound else CRes.ok P) =
    CRes.ok P
  rw [if_neg (by
    intro hemp
    exact hP (List.isEmpty_iff.mp hemp))]

theorem embedded_count (pre tail : List Char) (P : List Nat)
    (honly : ∀ i, litAt (pre ++ (scriptOpenLit ++ (b64encode P ++ (closeLit ++ tail))))
      i scriptLit = true → i = pre.length) :
    inlineMarkerOpenCount (pre ++ (scriptOpenLit ++ (b64encode P ++ (closeLit ++ tail)))) = 1 := by
  unfold inlineMarkerOpenCount
  apply countP_range_unique (p := pre.length)
  · rw [length_embed]; omega
  · rw [embedded_open pre tail P]; rfl
  · intro i _ hne
    cases hsome : (openEndAt (pre ++ (scriptOpenLit ++ (b64encode P ++ (closeLit ++ tail))))
        i).isSome with
    | false => rfl
    | true => exact absurd (honly i (openEndAt_isSome_script hsome)) hne

/-- In `pre ++ marker ++ tail`, when neither `pre` nor `tail` contains a
`<script` occurrence, the only occurrence in the whole document is the
inserted marker's opening tag at `pre.length`. -/
theorem only_script_at_insert (pre tail : List Char) (P : List Nat)
    (hpre : ∀ i, litAt pre i scriptLit = false)
    (htail : ∀ i, litAt tail i scriptLit = false) :
    ∀ i, litAt (pre ++ (scriptOpenLit ++ (b64encode P ++ (closeLit ++ tail))))
      i scriptLit = true → i = pre.length := by
  intro i hi
  have hlen := @length_embed pre tail P
  have hle := litAt_length_le (by decide) hi
  have h7 : scriptLit.length = 7 := by decide
  rw [h7] at hle
  by_contra hne
  have h0 := litAt_getD (d := 'x') hi (show 0 < scriptLit.length by decide)
  rw [Nat.add_zero, scriptLit_head] at h0
  rcases Nat.lt_or_ge i pre.length with hcase | hcase
  · -- starts inside `pre`
    rcases le_or_lt (i + 7) pre.length with hin | hcross
    · have hlitp : litAt pre i scriptLit = true := by
        have := litAt_prepend
          (X := pre) (Y := scriptOpenLit ++ (b64encode P ++ (closeLit ++ tail)))
          (by rw [h7]; exact hin)
        rw [← this]
        exact hi
      exact absurd hlitp (by rw [hpre i]; simp)
    · -- the window crosses into the marker; position `pre.length` holds `<`
      have hj := litAt_getD (d := 'x') hi
        (show pre.length - i < scriptLit.length by rw [h7]; omega)
      have e1 : i + (pre.length - i) = pre.length + 0 := by omega
      rw [e1, getD_seg_open (by omega)] at hj
      have hopen0 : scriptOpenLit.getD 0 'x' = '<' := by decide
      rw [hopen0] at hj
      exact scriptLit_no_lt (pre.length - i) (by omega) (by omega) hj.symm
  · rcases Nat.lt_or_ge i (pre.length + 41) with hcase2 | hcase2
    · -- strictly inside the opening tag (i ≠ pre.length)
      have e1 : i = pre.length + (i - pre.length) := by omega
      rw [e1, getD_seg_open (by omega)] at h0
      exact openLit_no_lt (i - pre.length) (by omega) (by omega) h0
    · rcases Nat.lt_or_ge i (pre.length + 41 + (b64encode P).length) with hcase3 | hcase3
      · -- inside the base64 body: no `<` there
        have e1 : i = pre.length + (41 + (i - pre.length - 41)) := by omega
        rw [e1, getD_seg_enc (by omega)] at h0
        have hsym : isB64Sym ((b64encode P).getD (i - pre.length - 41) 'x') = true :=
          getD_of_forall_mem (b64encode_syms P) (by omega)
        exact absurd h0 (isB64Sym_plain hsym).2
      · rcases Nat.eq_or_lt_of_le hcase3 with heq | hcase4
        · -- at the closing tag's `<`: the next character is `/`, not `s`
          have h1 := litAt_getD (d := 'x') hi (show 1 < scriptLit.length by decide)
          rw [scriptLit_snd] at h1
          have e1 : i + 1 = pre.length + (41 + ((b64encode P).length + 1)) := by omega
          rw [e1, getD_seg_close (by omega)] at h1
          rw [closeLit_snd] at h1
          exact absurd h1 (by decide)
        · rcases Nat.lt_or_ge i (pre.length + 41 + (b64encode P).length + 9) with
            hcase5 | hcase5
          · -- strictly inside the closing tag: no `<` there
            have e1 : i = pre.length +
                (41 + ((b64encode P).length + (i - pre.length - 41 - (b64encode P).length))) := by
              omega
            rw [e1, getD_seg_close (by omega)] at h0
            exact closeLit_no_lt (i - pre.length - 41 - (b64encode P).length)
              (by omega) (by omega) h0
          · -- inside `tail`
            have e1 : i = pre.length + (41 + ((b64encode P).length + 9)) +
                (i - pre.length - 41 - (b64encode P).length - 9) := by omega
            rw [e1, ← litAt_of_drop, drop_seg_tail] at hi
            exact absurd hi
              (by rw [htail (i - pre.length - 41 - (b64encode P).length - 9)]; simp)

theorem captureFirst_none_of_noScript {doc : List Char} (h : noScriptOpen doc) :
    captureFirst doc = none := by
  unfold captureFirst
  have hf : firstFrom (fun j => (capAt doc j).isSome) 0 doc.length = none := by
    rw [firstFrom_eq_none]
    intro k _ _
    rw [capAt_none_of_no_script (litAt_false_of_noScriptOpen h k)]
    rfl
  rw [hf]

theorem bodyFirst_spec {doc : List Char} {a b2 : Nat} (h : bodyFirst doc = some (a, b2)) :
    ∃ k, k < doc.length ∧ a = wsRunStart doc k ∧ b2 = k + 7 := by
  unfold bodyFirst at h
  cases hf : firstFrom (fun k => ciLitAt doc k bodyLit) 0 doc.length with
  | none => rw [hf] at h; exact absurd h (by simp)
  | some k =>
    rw [hf] at h
    have h' : some (wsRunStart doc k, k + 7) = some (a, b2) := h
    injection h' with hab
    rw [firstFrom_eq_some] at hf
    refine ⟨k, by omega, ?_, ?_⟩
    · exact (congrArg Prod.fst hab).symm
    · exact (congrArg Prod.snd hab).symm

theorem take_wsRunStart_end {doc : List Char} {k : Nat} (hk : k ≤ doc.length) :
    (doc.take (wsRunStart doc k)).length = 0 ∨
      isWs ((doc.take (wsRunStart doc k)).getD
        ((doc.take (wsRunStart doc k)).length - 1) 'x') = false := by
  rcases Nat.eq_zero_or_pos (wsRunStart doc k) with hz | hpos
  · left
    rw [hz]
    simp
  · right
    have hle : wsRunStart doc k ≤ k := wsRunStart_le
    have hlen : (doc.take (wsRunStart doc k)).length = wsRunStart doc k := by
      rw [List.length_take]
      omega
    rw [hlen, getD_take (by omega)]
    exact wsRunStart_pred_not_ws hpos

/-- On a document free of `<script`, `write_cai` takes the body-insertion or
the append branch; either way the output splits as
`pre ++ marker ++ tail` with a `<script`-free `pre` ending in a
non-whitespace character and a `<script`-free `tail` that is empty or
starts with a non-whitespace character. -/
theorem write_fresh_shape (doc : List Char) (P : List Nat) (hns : noScriptOpen doc) :
    ∃ pre tail,
      writeCaiDoc doc P = pre ++ (scriptOpenLit ++ (b64encode P ++ (closeLit ++ tail))) ∧
      (∀ i, litAt pre i scriptLit = false) ∧
      (∀ i, litAt tail i scriptLit = false) ∧
      (pre.length = 0 ∨ isWs (pre.getD (pre.length - 1) 'x') = false) ∧
      (tail = [] ∨ isWs (tail.getD 0 'x') = false) := by
  have hcf : captureFirst doc = none := captureFirst_none_of_noScript hns
  have hff : fullFirst doc = none := by
    unfold fullFirst
    rw [hcf]
  unfold writeCaiDoc
  rw [hff]
  cases hbody : bodyFirst doc with
  | some ab =>
    obtain ⟨a, b2⟩ := ab
    obtain ⟨k, hk, ha, _⟩ := bodyFirst_spec hbody
    refine ⟨doc.take a, bodyLit ++ doc.drop b2, ?_, noScriptOpen_take hns a,
      noScriptOpen_body_tail hns b2, ?_, ?_⟩
    · show doc.take a ++ (manifestScript P ++ bodyLit) ++ doc.drop b2 = _
      unfold manifestScript
      simp [List.append_assoc]
    · rw [ha]
      exact take_wsRunStart_end (by omega)
    · right
      rw [getD_append_left (by decide)]
      exact bodyLit_head_not_ws
  | none =>
    refine ⟨trimEndWs doc, [], ?_, noScriptOpen_take hns _, noScriptOpen_nil, ?_, Or.inl rfl⟩
    · show trimEndWs doc ++ manifestScript P = _
      unfold manifestScript
      simp [List.append_assoc]
    · exact take_wsRunStart_end (Nat.le_refl _)

/-- C1 (amended): for every document containing no occurrence of the literal
`<script` and every non-empty byte payload `P`, embedding `P` with
`write_cai` and then scanning the result with `read_cai` returns exactly
`P`, bit-identical. -/
theorem inline_roundtrip (doc : List Char) (P : List Nat) (hns : noScriptOpen doc)
    (hP : P ≠ []) (hb : ∀ x ∈ P, x < 256) :
    readCaiDoc (writeCaiDoc doc P) = CRes.ok P := by
  obtain ⟨pre, tail, hshape, hpreNo, htailNo, _, _⟩ := write_fresh_shape doc P hns
  rw [hshape]
  exact embedded_read pre tail P hP hb (only_script_at_insert pre tail P hpreNo htailNo)

/-- Counterexample to C1 as stated: a document consisting of a dangling
(unclosed) marker-opening tag; after embedding, scanning fails with the
bad-base64 error instead of returning the payload. -/
theorem inline_roundtrip_counterexample :
    readCaiDoc (writeCaiDoc docDangling [65, 66]) = CRes.err CaiError.invalidAsset ∧
    writeCaiDoc docDangling [65, 66] = docDangling ++ markerAB := by
  refine ⟨by decide, by decide⟩

/-- Witness for C1 (amended) at `docC9` with payload `A`. -/
theorem inline_roundtrip_witness :
    noScriptOpen docC9 ∧ readCaiDoc (writeCaiDoc docC9 [65]) = CRes.ok [65] :=
  ⟨by decide, inline_roundtrip docC9 [65] (by decide) (by decide) (by decide)⟩

theorem embedded_fullFirst (pre tail : List Char) (P : List Nat)
    (honly : ∀ i, litAt (pre ++ (scriptOpenLit ++ (b64encode P ++ (closeLit ++ tail))))
      i scriptLit = true → i = pre.length)
    (hpre2 : pre.length = 0 ∨ isWs (pre.getD (pre.length - 1) 'x') = false)
    (htail2 : tail = [] ∨ isWs (tail.getD 0 'x') = false) :
    fullFirst (pre ++ (scriptOpenLit ++ (b64encode P ++ (closeLit ++ tail)))) =
      some (pre.length, pre.length + (41 + ((b64encode P).length + 9))) := by
  have hlen := @length_embed pre tail P
  unfold fullFirst
  rw [embedded_captureFirst pre tail P honly]
  show some
      (wsRunStart (pre ++ (scriptOpenLit ++ (b64encode P ++ (closeLit ++ tail)))) pre.length,
       wsRunEnd (pre ++ (scriptOpenLit ++ (b64encode P ++ (closeLit ++ tail))))
         (pre.length + (41 + (b64encode P).length) + 9)) =
    some (pre.length, pre.length + (41 + ((b64encode P).length + 9)))
  have h1 : wsRunStart (pre ++ (scriptOpenLit ++ (b64encode P ++ (closeLit ++ tail))))
      pre.length = pre.length := by
    rcases Nat.eq_zero_or_pos pre.length with hz | hpos
    · rw [hz]
      exact wsRunStart_zero
    · rcases hpre2 with hz | hnw
      · omega
      · apply wsRunStart_eq_of_not_ws hpos
        rw [getD_append_left (by omega)]
        exact hnw
  have h2 : wsRunEnd (pre ++ (scriptOpenLit ++ (b64encode P ++ (closeLit ++ tail))))
      (pre.length + (41 + (b64encode P).length) + 9) =
      pre.length + (41 + ((b64encode P).length + 9)) := by
    have hts : pre.length + (41 + (b64encode P).length) + 9 =
        pre.length + (41 + ((b64encode P).length + 9)) := by omega
    rw [hts]
    by_cases htl : tail = []
    · subst htl
      have hend : pre.length + (41 + ((b64encode P).length + 9)) =
          (pre ++ (scriptOpenLit ++ (b64encode P ++ (closeLit ++ [])))).length := by
        rw [hlen]
        simp
      rw [hend]
      exact wsRunEnd_at_length
    · apply wsRunEnd_of_not_ws
      · rw [hlen]
        have hpos : 0 < tail.length := List.length_pos.mpr htl
        omega
      · have hget : (pre ++ (scriptOpenLit ++ (b64encode P ++ (closeLit ++ tail)))).getD
            (pre.length + (41 + ((b64encode P).length + 9))) 'x' = tail.getD 0 'x' := by
          have e0 : pre.length + (41 + ((b64encode P).length + 9)) =
              pre.length + (41 + ((b64encode P).length + 9)) + 0 := by omega
          rw [e0, ← getD_drop, drop_seg_tail]
        rw [hget]
        rcases htail2 with hz | hnw
        · exact absurd hz htl
        · exact hnw
  rw [h1, h2]

/-- Re-embedding over an already embedded document replaces exactly the
marker, leaving `pre` and `tail` untouched. -/
theorem embedded_rewrite (pre tail : List Char) (P1 P2 : List Nat)
    (honly : ∀ i, litAt (pre ++ (scriptOpenLit ++ (b64encode P1 ++ (closeLit ++ tail))))
      i scriptLit = true → i = pre.length)
    (hpre2 : pre.length = 0 ∨ isWs (pre.getD (pre.length - 1) 'x') = false)
    (htail2 : tail = [] ∨ isWs (tail.getD 0 'x') = false) :
    writeCaiDoc (pre ++ (scriptOpenLit ++ (b64encode P1 ++ (closeLit ++ tail)))) P2 =
      pre ++ (scriptOpenLit ++ (b64encode P2 ++ (closeLit ++ tail))) := by
  unfold writeCaiDoc
  rw [embedded_fullFirst pre tail P1 honly hpre2 htail2]
  show (pre ++ (scriptOpenLit ++ (b64encode P1 ++ (closeLit ++ tail)))).take pre.length ++
      manifestScript P2 ++
      (pre ++ (scriptOpenLit ++ (b64encode P1 ++ (closeLit ++ tail)))).drop
        (pre.length + (41 + ((b64encode P1).length + 9))) =
    pre ++ (scriptOpenLit ++ (b64encode P2 ++ (closeLit ++ tail)))
  rw [take_append_exact, drop_seg_tail]
  unfold manifestScript
  simp [List.append_assoc]

/-- C6 (amended): on a document free of `<script`, two successive embeds
leave exactly one inline marker, and scanning returns the second payload. -/
theorem reembed_single_marker (doc : List Char) (P1 P2 : List Nat)
    (hns : noScriptOpen doc) (h2 : P2 ≠ [])
    (hb2 : ∀ x ∈ P2, x < 256) :
    inlineMarkerOpenCount (writeCaiDoc (writeCaiDoc doc P1) P2) = 1 ∧
    readCaiDoc (writeCaiDoc (writeCaiDoc doc P1) P2) = CRes.ok P2 := by
  obtain ⟨pre, tail, hshape, hpreNo, htailNo, hpre2, htail2⟩ := write_fresh_shape doc P1 hns
  have honly1 := only_script_at_insert pre tail P1 hpreNo htailNo
  have honly2 := only_script_at_insert pre tail P2 hpreNo htailNo
  rw [hshape, embedded_rewrite pre tail P1 P2 honly1 hpre2 htail2]
  exact ⟨embedded_count pre tail P2 honly2,
    embedded_read pre tail P2 h2 hb2 honly2⟩

/-- Counterexample to C6 as stated: a document already holding two markers;
after two embeds the result still contains two inline markers. -/
theorem reembed_counterexample :
    inlineMarkerOpenCount (writeCaiDoc (writeCaiDoc docTwoMarkers [65]) [66]) = 2 := by
  decide

/-- Witness for C6 (amended) at `docC9`. -/
theorem reembed_single_marker_witness :
    noScriptOpen docC9 ∧
    inlineMarkerOpenCount (writeCaiDoc (writeCaiDoc docC9 [65]) [66, 67]) = 1 ∧
    readCaiDoc (writeCaiDoc (writeCaiDoc docC9 [65]) [66, 67]) = CRes.ok [66, 67] :=
  ⟨by decide,
   (reembed_single_marker docC9 [65] [66, 67] (by decide) (by decide) (by decide)).1,
   (reembed_single_marker docC9 [65] [66, 67] (by decide) (by decide) (by decide)).2⟩

theorem addRequiredSegsS_input (input output : IoStream) :
    ((addRequiredSegsS input output).2.1).data = input.data := by
  unfold addRequiredSegsS detectS writeCaiS readToEndS rewindS
  dsimp only
  rw [List.drop_zero]
  cases hd : detectManifestLocation input.data with
  | err e => rfl
  | ok pair =>
    obtain ⟨mopt, ip⟩ := pair
    cases mopt with
    | none => rfl
    | some m =>
      dsimp only
      by_cases hm : m.isEmpty = true
      · rw [if_pos hm]
      · rw [if_neg hm]

/-- C8: `get_object_locations_from_stream` never changes the caller's input
document; the placeholder (when needed) is written only to the fresh
in-memory buffer. -/
theorem locations_preserve_input (input : IoStream) :
    ((getObjectLocationsS input).2).data = input.data := by
  unfold getObjectLocationsS
  have hi2 := addRequiredSegsS_input input ⟨[], 0⟩
  cases ha : addRequiredSegsS input ⟨[], 0⟩ with
  | mk res rest =>
    rw [ha] at hi2
    obtain ⟨i2, buf⟩ := rest
    cases res with
    | err e => exact hi2
    | ok u =>
      show ((match detectS ⟨buf.data, 0⟩ with
        | (CRes.err e, _) => (CRes.err e, i2)
        | (CRes.ok (none, _), _) => (CRes.err CaiError.jumbfNotFound, i2)
        | (CRes.ok (some manifest, start), _) =>
          (CRes.ok
            [HashObjectPositions.mk start (b64encode manifest).length
              HashBlockObjectType.Cai,
             HashObjectPositions.mk 0 start HashBlockObjectType.Other,
             HashObjectPositions.mk (start + (b64encode manifest).length)
               (buf.data.length - (start + (b64encode manifest).length))
               HashBlockObjectType.Other], i2)).2).data = input.data
      cases hd : detectS ⟨buf.data, 0⟩ with
      | mk r s2 =>
        cases r with
        | err e => exact hi2
        | ok pair =>
          obtain ⟨mopt, ip⟩ := pair
          cases mopt with
          | none => exact hi2
          | some m => exact hi2

/-! ### Sidecar facts -/

theorem refPre_len : refPre.length = 32 := by decide

theorem refSuf_head : refSuf.getD 0 'x' = '"' := by decide

theorem refPre_rel_at_6 : litAt refPre 6 relAttr = true := by decide

theorem refPre_href_at_26 : litAt refPre 26 hrefKey = true := by decide

theorem refPre_href_unique : ∀ k, k < 26 → litAt refPre k hrefKey = false := by decide

theorem suffix_no_quote : ∀ c ∈ ('.' :: sidecarSuffix), c ≠ '"' := by decide

theorem sidecarPath_no_quote {docPath : List Char} (hq : ∀ c ∈ docPath, c ≠ '"') :
    ∀ c ∈ sidecarPath docPath, c ≠ '"' := by
  intro c hc
  unfold sidecarPath at hc
  rcases List.mem_append.mp hc with h | h
  · exact hq c h
  · exact suffix_no_quote c h

theorem isRefMarkerLine_marker (t : List Char) :
    isRefMarkerLine (refMarkerLine t) = true := by
  unfold isRefMarkerLine
  rw [firstFrom_isSome]
  refine ⟨6, by omega, ?_, ?_⟩
  · unfold refMarkerLine
    rw [List.length_append, refPre_len]
    omega
  · unfold refMarkerLine
    rw [litAt_prepend (by decide)]
    exact refPre_rel_at_6

theorem hrefOf_marker {t : List Char} (hq : ∀ c ∈ t, c ≠ '"') :
    hrefOf (refMarkerLine t) = some t := by
  have hlen : (refMarkerLine t).length = 32 + (t.length + 2) := by
    unfold refMarkerLine refSuf
    simp only [List.length_append, refPre_len]
    simp
  unfold hrefOf
  have h1 : firstFrom (fun i => litAt (refMarkerLine t) i hrefKey) 0
      (refMarkerLine t).length = some 26 := by
    rw [firstFrom_eq_some]
    refine ⟨by omega, by omega, ?_, ?_⟩
    · unfold refMarkerLine
      rw [litAt_prepend (by decide)]
      exact refPre_href_at_26
    · intro k _ hk
      unfold refMarkerLine
      rw [litAt_prepend (by
        have h6 : hrefKey.length = 6 := by decide
        rw [refPre_len, h6]
        omega)]
      exact refPre_href_unique k hk
  rw [h1]
  have h2 : firstFrom (fun k => (refMarkerLine t).getD k 'x' == '"') (26 + 6)
      ((refMarkerLine t).length - (26 + 6)) = some (32 + t.length) := by
    rw [firstFrom_eq_some]
    refine ⟨by omega, by omega, ?_, ?_⟩
    · have e1 : 32 + t.length = refPre.length + t.length := by rw [refPre_len]
      have e2 : t.length = t.length + 0 := by omega
      unfold refMarkerLine
      rw [e1, getD_append_right, e2, getD_append_right, refSuf_head]
      rfl
    · intro k hk1 hk2
      have e1 : k = refPre.length + (k - 32) := by rw [refPre_len]; omega
      unfold refMarkerLine
      rw [e1, getD_append_right, getD_append_left (by omega)]
      apply beq_eq_false_iff_ne.mpr
      exact getD_of_forall_mem hq (by omega)
  show (match firstFrom (fun k => (refMarkerLine t).getD k 'x' == '"') (26 + 6)
      ((refMarkerLine t).length - (26 + 6)) with
    | some en => some (((refMarkerLine t).drop (26 + 6)).take (en - (26 + 6)))
    | none => none) = some t
  rw [h2]
  have h3 : ((refMarkerLine t).drop (26 + 6)).take (32 + t.length - (26 + 6)) = t := by
    have e1 : (26 : Nat) + 6 = refPre.length := by rw [refPre_len]
    unfold refMarkerLine
    rw [e1, drop_append_exact]
    have e2 : 32 + t.length - refPre.length = t.length := by rw [refPre_len]; omega
    rw [e2]
    exact take_append_exact
  show some (((refMarkerLine t).drop (26 + 6)).take (32 + t.length - (26 + 6))) = some t
  rw [h3]

theorem insertAfterHead_countP (f : List Char → Bool) :
    ∀ (lines : List (List Char)) (m : List Char),
      (insertAfterHead lines m).countP f =
        lines.countP f + (if f m then 1 else 0)
  | [], m => by
    unfold insertAfterHead
    simp [List.countP_cons]
  | l :: rest, m => by
    unfold insertAfterHead
    by_cases hl : containsHeadTag l
    · rw [if_pos hl]
      simp only [List.countP_cons]
      omega
    · rw [if_neg hl]
      simp only [List.countP_cons]
      rw [insertAfterHead_countP f rest m]
      omega

theorem insertAfterHead_find {f : List Char → Bool} :
    ∀ (lines : List (List Char)) (m : List Char),
      (∀ l ∈ lines, f l = false) → f m = true →
      (insertAfterHead lines m).find? f = some m
  | [], m, _, hm => by
    unfold insertAfterHead
    simp [List.find?_cons, hm]
  | l :: rest, m, hall, hm => by
    unfold insertAfterHead
    have hl : f l = false := hall l (by simp)
    by_cases hh : containsHeadTag l
    · rw [if_pos hh]
      rw [List.find?_cons_of_neg _ (by rw [hl]; simp)]
      exact List.find?_cons_of_pos _ hm
    · rw [if_neg hh]
      rw [List.find?_cons_of_neg _ (by rw [hl]; simp)]
      exact insertAfterHead_find rest m (fun x hx => hall x (by simp [hx])) hm

theorem sidecarInsert_countP {lines : List (List Char)} {m : List Char}
    (hall : ∀ l ∈ lines, isRefMarkerLine l = false) (hm : isRefMarkerLine m = true) :
    (sidecarInsertMarker lines m).countP isRefMarkerLine = 1 := by
  unfold sidecarInsertMarker
  have hany : lines.any isRefMarkerLine = false := by
    rw [List.any_eq_false]
    intro l hl
    rw [hall l hl]
    simp
  rw [hany]
  simp only [Bool.false_eq_true, if_false]
  have hzero : lines.countP isRefMarkerLine = 0 := by
    rw [List.countP_eq_zero]
    intro l hl
    rw [hall l hl]
    simp
  by_cases hh : lines.any containsHeadTag
  · rw [if_pos hh, insertAfterHead_countP, hzero, hm]
    simp
  · rw [if_neg hh]
    simp [List.countP_cons, hzero, hm]

theorem sidecarInsert_find {lines : List (List Char)} {m : List Char}
    (hall : ∀ l ∈ lines, isRefMarkerLine l = false) (hm : isRefMarkerLine m = true) :
    (sidecarInsertMarker lines m).find? isRefMarkerLine = some m := by
  unfold sidecarInsertMarker
  have hany : lines.any isRefMarkerLine = false := by
    rw [List.any_eq_false]
    intro l hl
    rw [hall l hl]
    simp
  rw [hany]
  simp only [Bool.false_eq_true, if_false]
  by_cases hh : lines.any containsHeadTag
  · rw [if_pos hh]
    exact insertAfterHead_find lines m hall hm
  · rw [if_neg hh]
    exact List.find?_cons_of_pos _ hm

/-- C3: `sidecar_path` is the deterministic suffix transform; after `write`
the document holds exactly one reference marker line, that line's href is
the sidecar path, and `read` returns the sidecar file's full contents —
exactly the written payload. -/
theorem sidecar_roundtrip (fs : Fs) (docPath : List Char)
    (docLines : List (List Char)) (P : List Nat)
    (hq : ∀ c ∈ docPath, c ≠ '"')
    (hnomark : ∀ l ∈ docLines, isRefMarkerLine l = false) :
    sidecarPath docPath = docPath ++ ('.' :: sidecarSuffix) ∧
    ((sidecarWrite fs docPath docLines P).2).countP isRefMarkerLine = 1 ∧
    ((sidecarWrite fs docPath docLines P).2).find? isRefMarkerLine =
      some (refMarkerLine (sidecarPath docPath)) ∧
    hrefOf (refMarkerLine (sidecarPath docPath)) = some (sidecarPath docPath) ∧
    sidecarRead (sidecarWrite fs docPath docLines P).1
      (sidecarWrite fs docPath docLines P).2 = CRes.ok P := by
  have hm := isRefMarkerLine_marker (sidecarPath docPath)
  have href := hrefOf_marker (sidecarPath_no_quote hq)
  refine ⟨rfl, sidecarInsert_countP hnomark hm, sidecarInsert_find hnomark hm, href, ?_⟩
  unfold sidecarRead sidecarWrite
  dsimp only
  rw [sidecarInsert_find hnomark hm]
  show (match hrefOf (refMarkerLine (sidecarPath docPath)) with
    | some target =>
      match fsRead (fsWrite fs (sidecarPath docPath) P) target with
      | some bytes => CRes.ok bytes
      | none => CRes.err CaiError.jumbfNotFound
    | none => CRes.err CaiError.jumbfNotFound) = CRes.ok P
  rw [href]
  show (match fsRead (fsWrite fs (sidecarPath docPath) P) (sidecarPath docPath) with
    | some bytes => CRes.ok bytes
    | none => CRes.err CaiError.jumbfNotFound) = CRes.ok P
  have hread : fsRead (fsWrite fs (sidecarPath docPath) P) (sidecarPath docPath) =
      some P := by
    unfold fsRead fsWrite
    rw [List.find?_cons_of_pos _ (by simp)]
  rw [hread]

/-- Witness for C3 at a concrete page. -/
theorem sidecar_roundtrip_witness :
    sidecarPath ("page.html".data) = "page.html".data ++ ('.' :: sidecarSuffix) ∧
    sidecarRead
      (sidecarWrite [] ("page.html".data)
        ["<html>".data, "<head>".data, "</head>".data, "<body></body>".data,
         "</html>".data] [1, 2, 3]).1
      (sidecarWrite [] ("page.html".data)
        ["<html>".data, "<head>".data, "</head>".data, "<body></body>".data,
         "</html>".data] [1, 2, 3]).2 = CRes.ok [1, 2, 3] :=
  ⟨(sidecar_roundtrip [] ("page.html".data)
      ["<html>".data, "<head>".data, "</head>".data, "<body></body>".data,
       "</html>".data] [1, 2, 3] (by decide) (by decide)).1,
   (sidecar_roundtrip [] ("page.html".data)
      ["<html>".data, "<head>".data, "</head>".data, "<body></body>".data,
       "</html>".data] [1, 2, 3] (by decide) (by decide)).2.2.2.2⟩

end HtmlC2pa
